import Mathlib

/-!
# VMXArduinoSerialInterface: the serial command sketch `Arduino/src/main.cpp`

A shallow embedding of the two routines of the sketch:

* `parseCommand` (main.cpp lines 14-67), which tokenises one line with `strtok`,
  checks the `VMX` marker, selects one of five opcodes and makes one hardware call;
* `loop` (main.cpp lines 75-99), which stores incoming serial bytes in the global
  array `command` and hands the array to `parseCommand` when a newline arrives.

C strings are lists of characters; the global state is passed explicitly; what the
program does to the outside world (hardware calls, serial output) is returned as a
list of events in program order.  Behaviour that C leaves undefined (a null pointer
passed to `strcmp` or `atoi`, a store outside the array) is a `Fault`.
-/

namespace VMXSerial

/-! ## Constants -/

/-- Build switch `#define VMX_ONLY true` (main.cpp line 1). -/
def VMX_ONLY : Bool := true

/-- Array size `#define MAX_COMMAND_SIZE 50` (main.cpp line 2). -/
def MAX_COMMAND_SIZE : Nat := 50

/-- Arduino.h: `#define LOW 0x0`. -/
def LOW : Int := 0

/-- Arduino.h: `#define HIGH 0x1`. -/
def HIGH : Int := 1

/-- Arduino.h: `#define INPUT 0x0`. -/
def INPUT : Int := 0

/-- Arduino.h: `#define OUTPUT 0x1`. -/
def OUTPUT : Int := 1

/-- Arduino.h: `#define INPUT_PULLUP 0x2`. -/
def INPUT_PULLUP : Int := 2

/-- The string terminator, written `'\0'` in the source. -/
def NUL : Char := Char.ofNat 0

/-- The delimiter set `" "` given to every `strtok` call. -/
def delims : List Char := [' ']

/-- The literal `"VMX"`. -/
def strVMX : List Char := ['V', 'M', 'X']

/-- The literal `"PINMODE"`. -/
def strPINMODE : List Char := ['P', 'I', 'N', 'M', 'O', 'D', 'E']

/-- The literal `"DIGITALWRITE"`. -/
def strDIGITALWRITE : List Char := ['D', 'I', 'G', 'I', 'T', 'A', 'L', 'W', 'R', 'I', 'T', 'E']

/-- The literal `"DIGITALREAD"`. -/
def strDIGITALREAD : List Char := ['D', 'I', 'G', 'I', 'T', 'A', 'L', 'R', 'E', 'A', 'D']

/-- The literal `"ANALOGWRITE"`. -/
def strANALOGWRITE : List Char := ['A', 'N', 'A', 'L', 'O', 'G', 'W', 'R', 'I', 'T', 'E']

/-- The literal `"ANALOGREAD"`. -/
def strANALOGREAD : List Char := ['A', 'N', 'A', 'L', 'O', 'G', 'R', 'E', 'A', 'D']

/-- The literal `"OUTPUT"`. -/
def strOUTPUT : List Char := ['O', 'U', 'T', 'P', 'U', 'T']

/-- The literal `"INPUT"`. -/
def strINPUT : List Char := ['I', 'N', 'P', 'U', 'T']

/-- The literal `"LOW"`. -/
def strLOW : List Char := ['L', 'O', 'W']

/-- The literal `"code "` printed before a status. -/
def strCode : List Char := ['c', 'o', 'd', 'e', ' ']

/-! ## Faults, events, the board -/

/-- Undefined behaviour the sketch can run into. -/
inductive Fault where
  /-- A null token (a `strtok` result of `NULL`) handed to `strcmp` or `atoi`. -/
  | nullPointer : Fault
  /-- A store to `command[index]` with `index` outside `0 .. MAX_COMMAND_SIZE - 1`. -/
  | outOfBounds (index : Int) : Fault
  /-- The array `command` holds no terminator, so reading it as a string leaves the array. -/
  | unterminated : Fault
  deriving DecidableEq

/-- What the sketch does to the outside world, in program order: the five hardware
calls with the argument values the sketch computes, and the two kinds of serial output. -/
inductive Event where
  | pinMode (pin mode : Int) : Event
  | digitalWrite (pin val : Int) : Event
  | digitalRead (pin : Int) : Event
  | analogWrite (pin val : Int) : Event
  | analogRead (pin : Int) : Event
  /-- The call `Serial.print(s)` of a string. -/
  | print (s : List Char) : Event
  /-- The call `Serial.println(n)` of an int: the decimal numeral of `n` and a line end. -/
  | println (n : Int) : Event
  deriving DecidableEq

/-- Hardware calls, as opposed to serial output. -/
def Event.isHardware : Event → Bool
  | .pinMode _ _ => true
  | .digitalWrite _ _ => true
  | .digitalRead _ => true
  | .analogWrite _ _ => true
  | .analogRead _ => true
  | .print _ => false
  | .println _ => false

/-- The hardware calls among a list of events. -/
def hardwareCalls (es : List Event) : List Event := es.filter Event.isHardware

/-- The serial output among a list of events. -/
def serialOutput (es : List Event) : List Event := es.filter (fun e => !e.isHardware)

/-- An event that starts a status line: `Serial.print("code ")`. -/
def Event.isCodeLabel : Event → Bool
  | .print s => decide (s = strCode)
  | _ => false

/-- The parts of the platform the sketch relies on and main.cpp does not define: the
width of `int` (16 on the AVR boards) and the values the two read calls return. -/
structure Board where
  intBits : Nat
  digitalRead : Int → Int
  analogRead : Int → Int

/-! ## The C library routines used by `parseCommand` -/

/-- The C string stored at the start of `mem`: the characters before the first terminator. -/
def cstr (mem : List Char) : List Char := mem.takeWhile (fun c => c ≠ NUL)

/-- Library `strcmp` on two C strings: 0 when equal, otherwise the difference of the
first two characters that differ (the terminator counting as 0), as avr-libc computes
it; the C standard fixes the sign of this value. -/
def strcmp : List Char → List Char → Int
  | [], [] => 0
  | [], b :: _ => - (b.toNat : Int)
  | a :: _, [] => (a.toNat : Int)
  | a :: as, b :: bs => if a = b then strcmp as bs else (a.toNat : Int) - (b.toNat : Int)

/-- Library `isspace`. -/
def isspace (c : Char) : Bool :=
  c.toNat = 32 || (9 ≤ c.toNat && c.toNat ≤ 13)

/-- Library `isdigit`. -/
def isdigit (c : Char) : Bool := 48 ≤ c.toNat && c.toNat ≤ 57

/-- The value of the leading decimal digits of `s`, continuing from `acc`. -/
def digitsValue : List Char → Nat → Nat
  | [], acc => acc
  | c :: cs, acc => if isdigit c then digitsValue cs (acc * 10 + (c.toNat - 48)) else acc

/-- Reduction of an integer to a two's complement `int` of `bits` bits. -/
def wrapInt (bits : Nat) (n : Int) : Int :=
  (n + 2 ^ (bits - 1)) % 2 ^ bits - 2 ^ (bits - 1)

/-- Library `atoi` on a C string: leading white space is skipped, an optional sign is
read, then decimal digits up to the first other character; no digits give 0.  The
result is an `int` of `bits` bits. -/
def atoi (bits : Nat) (s : List Char) : Int :=
  match s.dropWhile isspace with
  | '-' :: ds => wrapInt bits (- (digitsValue ds 0 : Int))
  | '+' :: ds => wrapInt bits (digitsValue ds 0 : Int)
  | ds => wrapInt bits (digitsValue ds 0 : Int)

/-- The internal state of `strtok` between calls, relative to the buffer being split:
`passed` is the part of the buffer before the saved pointer as it now stands in memory
(delimiters that ended a token overwritten by terminators), `rest` is the C string at
the saved pointer. -/
structure StrtokState where
  passed : List Char
  rest : List Char
  deriving DecidableEq

/-- The buffer contents as `strtok` has left them. -/
def StrtokState.memory (st : StrtokState) : List Char := st.passed ++ st.rest

/-- Library `strtok(str, delim)`.  With `str = some s` scanning starts at the string
`s`; with `str = none` (a `NULL` argument) it resumes at the saved pointer.  Leading
delimiters are skipped; if nothing is left the result is `NULL` (`none`).  Otherwise
the token runs up to the next delimiter, which is overwritten by a terminator, or up
to the end of the string. -/
def strtok (str : Option (List Char)) (delim : List Char) (saved : StrtokState) :
    Option (List Char) × StrtokState :=
  let start : StrtokState :=
    match str with
    | some s => ⟨[], s⟩
    | none => saved
  let lead := start.rest.takeWhile (fun c => decide (c ∈ delim))
  match start.rest.dropWhile (fun c => decide (c ∈ delim)) with
  | [] => (none, ⟨start.passed ++ lead, []⟩)
  | c :: cs =>
    let tok := (c :: cs).takeWhile (fun x => !decide (x ∈ delim))
    match (c :: cs).dropWhile (fun x => !decide (x ∈ delim)) with
    | [] => (some tok, ⟨start.passed ++ lead ++ tok, []⟩)
    | _ :: after => (some tok, ⟨start.passed ++ lead ++ tok ++ [NUL], after⟩)

/-- Use of a token pointer as a string argument of `strcmp` or `atoi`: a null pointer
is a fault. -/
def deref : Option (List Char) → Except Fault (List Char)
  | none => .error Fault.nullPointer
  | some s => .ok s

/-! ## `parseCommand` -/

/-- What one call of `parseCommand` leaves behind: the value returned, the events in
program order, and the contents of the buffer it was given (changed by `strtok`). -/
structure Outcome where
  status : Int
  effects : List Event
  command : List Char
  deriving DecidableEq

/-- The function `parseCommand` (main.cpp lines 14-67).  `vmxOnly` is the value of the
macro `VMX_ONLY`; `command` is the memory the argument points to. -/
def parseCommand (vmxOnly : Bool) (hw : Board) (command : List Char) : Except Fault Outcome :=
  let line := cstr command
  let behind := command.drop line.length
  -- char* token = strtok(command, " ");
  let t0 := strtok (some line) delims ⟨[], []⟩
  do
    -- if (VMX_ONLY && strcmp(token, "VMX")) return 2;
    let bad ← (if vmxOnly then do
                let token ← deref t0.1
                pure (decide (strcmp token strVMX ≠ 0))
              else pure false)
    if bad then
      pure ⟨2, [], t0.2.memory ++ behind⟩
    else
      -- token = strtok(NULL, " ");
      let t1 := strtok none delims t0.2
      let token ← deref t1.1
      if strcmp token strPINMODE = 0 then
        let t2 := strtok none delims t1.2
        let pin := atoi hw.intBits (← deref t2.1)
        let t3 := strtok none delims t2.2
        let modeStr ← deref t3.1
        let mode :=
          if strcmp modeStr strOUTPUT = 0 then OUTPUT
          else if strcmp modeStr strINPUT = 0 then INPUT
          else INPUT_PULLUP
        pure ⟨0, [Event.pinMode pin mode], t3.2.memory ++ behind⟩
      else if strcmp token strDIGITALWRITE = 0 then
        let t2 := strtok none delims t1.2
        let pin := atoi hw.intBits (← deref t2.1)
        let t3 := strtok none delims t2.2
        let voltage := strcmp (← deref t3.1) strLOW
        pure ⟨0, [Event.digitalWrite pin voltage], t3.2.memory ++ behind⟩
      else if strcmp token strDIGITALREAD = 0 then
        let t2 := strtok none delims t1.2
        let pin := atoi hw.intBits (← deref t2.1)
        let voltage := hw.digitalRead pin
        pure ⟨-1, [Event.digitalRead pin, Event.println voltage], t2.2.memory ++ behind⟩
      else if strcmp token strANALOGWRITE = 0 then
        let t2 := strtok none delims t1.2
        let pin := atoi hw.intBits (← deref t2.1)
        let t3 := strtok none delims t2.2
        let pwmWave := atoi hw.intBits (← deref t3.1)
        pure ⟨0, [Event.analogWrite pin pwmWave], t3.2.memory ++ behind⟩
      else if strcmp token strANALOGREAD = 0 then
        let t2 := strtok none delims t1.2
        let pin := atoi hw.intBits (← deref t2.1)
        let pwmWave := hw.analogRead pin
        pure ⟨-1, [Event.analogRead pin, Event.println pwmWave], t2.2.memory ++ behind⟩
      else
        pure ⟨5, [], t1.2.memory ++ behind⟩

/-! ## The tokens of a line -/

/-- The tokens that the first `n` successive `strtok` calls with delimiter `" "` return
on the string `s`, up to the first `NULL`. -/
def tokensAux : Nat → List Char → List (List Char)
  | 0, _ => []
  | n + 1, s =>
    match strtok (some s) delims ⟨[], []⟩ with
    | (none, _) => []
    | (some t, st) => t :: tokensAux n st.rest

/-- All the tokens `strtok` finds in the string `s` with delimiter `" "`, in order.  Each
token uses up at least one character, so `s.length + 1` calls reach the `NULL`. -/
def tokens (s : List Char) : List (List Char) := tokensAux (s.length + 1) s

/-- The number of argument tokens `parseCommand` reads after the opcode token `op`:
two for PINMODE, DIGITALWRITE and ANALOGWRITE, one for DIGITALREAD and ANALOGREAD, none
on the branch that returns 5. -/
def operandCount (op : List Char) : Nat :=
  if op = strPINMODE then 2
  else if op = strDIGITALWRITE then 2
  else if op = strDIGITALREAD then 1
  else if op = strANALOGWRITE then 2
  else if op = strANALOGREAD then 1
  else 0

/-- The token list holds every token `parseCommand` hands to `strcmp` or `atoi`: with
the marker check on, a first token, and after a first token `VMX` an opcode token and
its argument tokens; with the check off, a second token (the opcode) and its argument
tokens. -/
def suppliesAll (vmxOnly : Bool) : List (List Char) → Bool
  | [] => false
  | t0 :: more =>
    if vmxOnly && decide (t0 ≠ strVMX) then true
    else
      match more with
      | [] => false
      | op :: args => decide (operandCount op ≤ args.length)

/-! ## The globals and `loop` -/

/-- The two globals of the sketch: the array `command` and the index `cmdIndex`. -/
structure Globals where
  command : List Char
  cmdIndex : Int
  deriving DecidableEq

/-- The globals at start-up: `char command[MAX_COMMAND_SIZE] = {}` and `cmdIndex = 0`. -/
def initial : Globals := ⟨List.replicate MAX_COMMAND_SIZE NUL, 0⟩

/-- The store `command[i] = c`; an index outside the array is a fault. -/
def store (command : List Char) (i : Int) (c : Char) : Except Fault (List Char) :=
  if 0 ≤ i ∧ i < (MAX_COMMAND_SIZE : Int) then .ok (command.set i.toNat c)
  else .error (Fault.outOfBounds i)

/-- One pass through `loop` (main.cpp lines 75-99).  `incoming` is `none` when
`Serial.available()` is 0 and `some chr` when `Serial.read()` yields `chr`.  The result
is the new globals and the events of this pass. -/
def loop (vmxOnly : Bool) (hw : Board) (g : Globals) (incoming : Option Char) :
    Except Fault (Globals × List Event) :=
  match incoming with
  | none => pure (g, [])
  | some chr =>
    if chr = '\n' then do
      let out ← (if NUL ∈ g.command then parseCommand vmxOnly hw g.command
                 else .error Fault.unterminated)
      let errorCode := out.status
      let report :=
        if errorCode > -1 then [Event.print strCode, Event.println errorCode] else []
      -- command[0] = '\0'; cmdIndex = 0;
      let cleared ← store out.command 0 NUL
      pure (⟨cleared, 0⟩, out.effects ++ report)
    else do
      -- command[cmdIndex] = chr; ++cmdIndex; command[cmdIndex] = '\0';
      let c1 ← store g.command g.cmdIndex chr
      let c2 ← store c1 (g.cmdIndex + 1) NUL
      pure (⟨c2, g.cmdIndex + 1⟩, [])

/-- Repeated passes through `loop`, one for each byte of `bytes` in order; the events
of all passes are concatenated. -/
def run (vmxOnly : Bool) (hw : Board) : Globals → List Char → Except Fault (Globals × List Event)
  | g, [] => pure (g, [])
  | g, b :: bs => do
    let (g1, e1) ← loop vmxOnly hw g (some b)
    let (g2, e2) ← run vmxOnly hw g1 bs
    pure (g2, e1 ++ e2)

/-- Globals whose array holds the string `line` followed by terminators up to the
array size, with the index at the end of `line`. -/
def holding (line : List Char) : Globals :=
  ⟨line ++ List.replicate (MAX_COMMAND_SIZE - line.length) NUL, line.length⟩

/-! ## Reports, numerals, and the lines of a byte stream -/

/-- What a call of `parseCommand` shows to the outside: the value returned and the
events, without the buffer contents. -/
def Outcome.report (o : Outcome) : Int × List Event := (o.status, o.effects)

/-- The pin argument of a hardware call. -/
def Event.pinArg : Event → Option Int
  | .pinMode pin _ => some pin
  | .digitalWrite pin _ => some pin
  | .digitalRead pin => some pin
  | .analogWrite pin _ => some pin
  | .analogRead pin => some pin
  | .print _ => none
  | .println _ => none

/-- The decimal digits `atoi` reads from `s`: those that follow the leading white space
and the optional sign. -/
def numberDigits (s : List Char) : List Char :=
  match s.dropWhile isspace with
  | '-' :: ds => ds.takeWhile isdigit
  | '+' :: ds => ds.takeWhile isdigit
  | ds => ds.takeWhile isdigit

/-- The decimal numeral of a natural number, as a C string. -/
def numeral (n : Nat) : List Char := Nat.toDigits 10 n

/-- The report of a call of `parseCommand`, or its fault. -/
def reportOf (r : Except Fault Outcome) : Except Fault (Int × List Event) :=
  match r with
  | .error f => .error f
  | .ok o => .ok o.report

/-- The events that repeated passes through `loop` emit, one pass for each byte in
order, up to the end of the bytes or up to the first fault, and that fault if there
is one.  A pass that ends in a fault emits nothing before it: in `parseCommand` every
`strcmp` and `atoi` precedes the hardware call, and the stores of `loop` come with no
event. -/
def runTrace (vmxOnly : Bool) (hw : Board) : Globals → List Char → List Event × Option Fault
  | _, [] => ([], none)
  | g, b :: bs =>
    match loop vmxOnly hw g (some b) with
    | .error f => ([], some f)
    | .ok (g1, e1) => (e1 ++ (runTrace vmxOnly hw g1 bs).1, (runTrace vmxOnly hw g1 bs).2)

/-- A board with 16-bit `int` whose digital reads give 1 and analog reads give 512. -/
def demoBoard : Board := ⟨16, fun _ => 1, fun _ => 512⟩

/-- The empty line. -/
def lineEmpty : List Char := []

/-- The line `FOO PINMODE 13 OUTPUT`. -/
def lineFoo : List Char := "FOO PINMODE 13 OUTPUT".toList

/-- The line `VMX`, which has no opcode token. -/
def lineMarkerOnly : List Char := "VMX".toList

/-- The line `VMX FROBNICATE 1 2`. -/
def lineFrobnicate : List Char := "VMX FROBNICATE 1 2".toList

/-- The line `VMX PINMODE 13`, which has no mode token. -/
def linePinModeShort : List Char := "VMX PINMODE 13".toList

/-- The line `VMX PINMODE 13 OUTPUT`. -/
def linePinModeOutput : List Char := "VMX PINMODE 13 OUTPUT".toList

/-- The line `VMX PINMODE 13 output`, with a lower-case mode. -/
def linePinModeLower : List Char := "VMX PINMODE 13 output".toList

/-- The line `VMX DIGITALWRITE 13 HIGH`. -/
def lineWriteHigh : List Char := "VMX DIGITALWRITE 13 HIGH".toList

/-- The line `VMX DIGITALREAD 7`. -/
def lineDigitalRead : List Char := "VMX DIGITALREAD 7".toList

/-- The line `VMX ANALOGREAD 3`. -/
def lineAnalogRead : List Char := "VMX ANALOGREAD 3".toList

/-- The line `VMX ANALOGWRITE 9`, which has no value token. -/
def lineAnalogWriteShort : List Char := "VMX ANALOGWRITE 9".toList

/-- The line `VMX ANALOGWRITE 9 128`. -/
def lineAnalogWrite : List Char := "VMX ANALOGWRITE 9 128".toList

/-- The stream of the lines `FOO` and `VMX DIGITALREAD 7` and the unfinished `VM`. -/
def streamThree : List Char := "FOO\nVMX DIGITALREAD 7\nVM".toList

/-- The line `VMX DIGITALREAD`, which has no pin token. -/
def lineReadNoPin : List Char := "VMX DIGITALREAD".toList

/-- The line `VMX DIGITALREAD 7x`, whose pin token is no decimal numeral. -/
def lineReadSevenX : List Char := "VMX DIGITALREAD 7x".toList

/-- The line `VMX DIGITALREAD x7`, whose pin token starts with no digit. -/
def lineReadXSeven : List Char := "VMX DIGITALREAD x7".toList

/-- The line `PINMODE 13 OUTPUT`, which has no marker token. -/
def lineNoMarker : List Char := "PINMODE 13 OUTPUT".toList

/-- The fields of `VMX PINMODE 13 OUTPUT` separated by tabs. -/
def lineTabs : List Char := "VMX\tPINMODE\t13\tOUTPUT".toList

/-- The line `VMX PINMODE 13 OUTPUT` with a carriage return left at its end. -/
def lineCarriageReturn : List Char := "VMX PINMODE 13 OUTPUT\r".toList

/-! ## Library facts: `strtok` and `strcmp` -/

/-- A call `strtok(NULL, " ")` returns what a fresh call on the string at the saved pointer returns. -/
theorem strtok_resume (st : StrtokState) :
    (strtok none delims st).1 = (strtok (some st.rest) delims ⟨[], []⟩).1 ∧
    (strtok none delims st).2.rest = (strtok (some st.rest) delims ⟨[], []⟩).2.rest := by
  simp only [strtok]
  split <;> [skip; split] <;> simp

/-- A call that returns a token leaves a strictly shorter string at the saved pointer. -/
theorem strtok_rest_lt (s : List Char) (t : List Char) (st : StrtokState)
    (h : strtok (some s) delims ⟨[], []⟩ = (some t, st)) : st.rest.length < s.length := by
  simp only [strtok] at h
  have hsuf := (List.dropWhile_suffix (l := s) (fun c => decide (c ∈ delims))).length_le
  split at h
  · simp at h
  · rename_i c cs hc
    rw [hc] at hsuf
    have hsuf2 := (List.dropWhile_suffix (l := c :: cs) (fun x => !decide (x ∈ delims))).length_le
    split at h
    · simp at h
      obtain ⟨-, rfl⟩ := h
      simp at hsuf ⊢ 
      omega
    · rename_i d after hd
      rw [hd] at hsuf2
      simp at h
      obtain ⟨-, rfl⟩ := h
      simp at hsuf hsuf2 ⊢
      omega

/-- Any number of calls above the length of the string gives the same tokens. -/
theorem tokensAux_fuel (n m : Nat) (s : List Char) (hn : s.length < n) (hm : s.length < m) :
    tokensAux n s = tokensAux m s := by
  induction n generalizing m s with
  | zero => omega
  | succ n ih =>
    cases m with
    | zero => omega
    | succ m =>
      simp only [tokensAux]
      rcases h : strtok (some s) delims ⟨[], []⟩ with ⟨tok, st⟩
      cases tok with
      | none => rfl
      | some t =>
        have := strtok_rest_lt s t st h
        simp only
        rw [ih m st.rest (by omega) (by omega)]

theorem strtok_none_rest (s : List Char) (st : StrtokState)
    (h : strtok (some s) delims ⟨[], []⟩ = (none, st)) : st.rest = [] := by
  simp only [strtok] at h
  split at h
  · simp at h; rw [← h]
  · split at h <;> simp at h

/-- The first call `strtok(s, " ")` returns the first token of `s` (or `NULL` when there is none) and leaves the other tokens. -/
theorem tokens_first (s : List Char) (saved : StrtokState) :
    (strtok (some s) delims saved).1 = (tokens s).head? ∧
    tokens (strtok (some s) delims saved).2.rest = (tokens s).tail := by
  have e : strtok (some s) delims saved = strtok (some s) delims ⟨[], []⟩ := by
    simp [strtok]
  rw [e]
  simp only [tokens, tokensAux]
  rcases h : strtok (some s) delims ⟨[], []⟩ with ⟨tok, st⟩
  cases tok with
  | none =>
    have := strtok_none_rest s st h
    simp [this, tokensAux, strtok]
  | some t =>
    have := strtok_rest_lt s t st h
    simp
    exact tokensAux_fuel (st.rest.length + 1) s.length st.rest (by omega) (by omega)

/-- Each further call `strtok(NULL, " ")` returns the next token and leaves the others. -/
theorem tokens_next (st : StrtokState) :
    (strtok none delims st).1 = (tokens st.rest).head? ∧
    tokens (strtok none delims st).2.rest = (tokens st.rest).tail := by
  obtain ⟨h1, h2⟩ := strtok_resume st
  obtain ⟨h3, h4⟩ := tokens_first st.rest ⟨[], []⟩
  rw [h1, h2]
  exact ⟨h3, h4⟩

theorem strcmp_self (a : List Char) : strcmp a a = 0 := by
  induction a with
  | nil => rfl
  | cons x xs ih => simp [strcmp, ih]

theorem char_toNat_ne (a b : Char) (h : a ≠ b) : (a.toNat : Int) - (b.toNat : Int) ≠ 0 := by
  intro e
  apply h
  have : a.toNat = b.toNat := by omega
  exact Char.ext (UInt32.ext (by simpa [Char.toNat, UInt32.toNat] using this))

theorem char_eq_NUL (c : Char) (h : c.toNat = 0) : c = NUL :=
  Char.ext (UInt32.ext (by simpa [Char.toNat, UInt32.toNat, NUL] using h))

/-- On C strings (no terminator inside) `strcmp` is 0 exactly for equal strings. -/
theorem strcmp_eq_zero_iff (a b : List Char) (ha : NUL ∉ a) (hb : NUL ∉ b) :
    strcmp a b = 0 ↔ a = b := by
  induction a generalizing b with
  | nil =>
    cases b with
    | nil => simp [strcmp]
    | cons y ys =>
      simp only [strcmp, List.mem_cons, not_or] at hb ⊢
      constructor
      · intro h
        exact absurd (char_eq_NUL y (by omega)).symm hb.1
      · intro h; cases h
  | cons x xs ih =>
    simp only [List.mem_cons, not_or] at ha
    cases b with
    | nil =>
      simp only [strcmp]
      constructor
      · intro h
        exact absurd (char_eq_NUL x (by omega)).symm ha.1
      · intro h; cases h
    | cons y ys =>
      simp only [List.mem_cons, not_or] at hb
      simp only [strcmp]
      by_cases hxy : x = y
      · simp [hxy, ih ys ha.2 hb.2]
      · simp [hxy, char_toNat_ne x y hxy]

theorem strtok_token_mem (s t : List Char) (st : StrtokState)
    (h : strtok (some s) delims ⟨[], []⟩ = (some t, st)) :
    (∀ c ∈ t, c ∈ s) ∧ (∀ c ∈ st.rest, c ∈ s) := by
  simp only [strtok] at h
  have hsuf := (List.dropWhile_suffix (l := s) (fun c => decide (c ∈ delims)))
  split at h
  · simp at h
  · rename_i c cs hc
    rw [hc] at hsuf
    have hsuf2 := (List.dropWhile_suffix (l := c :: cs) (fun x => !decide (x ∈ delims)))
    have hpre := (List.takeWhile_prefix (l := c :: cs) (fun x => !decide (x ∈ delims)))
    have ht : ∀ x ∈ t, x ∈ s := by
      intro x hx
      have : t = List.takeWhile (fun x => !decide (x ∈ delims)) (c :: cs) := by
        split at h <;> simp at h <;> exact h.1.symm
      rw [this] at hx
      exact hsuf.subset (hpre.subset hx)
    refine ⟨ht, ?_⟩
    split at h
    · simp at h
      obtain ⟨-, rfl⟩ := h
      simp
    · rename_i d after hd
      rw [hd] at hsuf2
      simp at h
      obtain ⟨-, rfl⟩ := h
      intro x hx
      exact hsuf.subset (hsuf2.subset (List.mem_cons_of_mem _ hx))

theorem tokensAux_mem (n : Nat) (s : List Char) :
    ∀ t ∈ tokensAux n s, ∀ c ∈ t, c ∈ s := by
  induction n generalizing s with
  | zero => simp [tokensAux]
  | succ n ih =>
    simp only [tokensAux]
    rcases h : strtok (some s) delims ⟨[], []⟩ with ⟨tok, st⟩
    cases tok with
    | none => simp
    | some t0 =>
      obtain ⟨h1, h2⟩ := strtok_token_mem s t0 st h
      intro t ht c hc
      simp only [List.mem_cons] at ht
      rcases ht with rfl | ht
      · exact h1 c hc
      · exact h2 c (ih st.rest t ht c hc)

theorem cstr_no_NUL (mem : List Char) : NUL ∉ cstr mem := by
  intro h
  have := List.mem_takeWhile_imp h
  simp at this

/-- A token of the C string stored in `mem` has no terminator inside. -/
theorem token_no_NUL (mem : List Char) (t : List Char) (h : t ∈ tokens (cstr mem)) : NUL ∉ t :=
  fun hc => cstr_no_NUL mem (tokensAux_mem _ _ t h NUL hc)

/-- The four `strtok` calls of `parseCommand` return the first four tokens of the line, `NULL` standing for a missing one. -/
theorem strtok_chain (s : List Char) :
    (strtok (some s) delims ⟨[], []⟩).1 = (tokens s).head? ∧
    (strtok none delims (strtok (some s) delims ⟨[], []⟩).2).1 = (tokens s).tail.head? ∧
    (strtok none delims (strtok none delims (strtok (some s) delims ⟨[], []⟩).2).2).1
      = (tokens s).tail.tail.head? ∧
    (strtok none delims (strtok none delims (strtok none delims
      (strtok (some s) delims ⟨[], []⟩).2).2).2).1 = (tokens s).tail.tail.tail.head? := by
  obtain ⟨a1, a2⟩ := tokens_first s ⟨[], []⟩
  obtain ⟨b1, b2⟩ := tokens_next (strtok (some s) delims ⟨[], []⟩).2
  obtain ⟨c1, c2⟩ := tokens_next (strtok none delims (strtok (some s) delims ⟨[], []⟩).2).2
  obtain ⟨d1, d2⟩ := tokens_next (strtok none delims (strtok none delims
    (strtok (some s) delims ⟨[], []⟩).2).2).2
  refine ⟨a1, ?_, ?_, ?_⟩
  · rw [b1, a2]
  · rw [c1, b2, a2]
  · rw [d1, c2, b2, a2]

/-- The first call of `strtok` changes characters of the buffer in place: the length stays. -/
theorem strtok_memory_first (s : List Char) (saved : StrtokState) :
    (strtok (some s) delims saved).2.memory.length = s.length := by
  have key := congrArg List.length (List.takeWhile_append_dropWhile (fun c => decide (c ∈ delims)) s)
  simp only [strtok, StrtokState.memory]
  split
  · rename_i hc
    rw [hc] at key
    simpa using key
  · rename_i c cs hc
    rw [hc] at key
    have key2 := congrArg List.length
      (List.takeWhile_append_dropWhile (fun x => !decide (x ∈ delims)) (c :: cs))
    split
    · rename_i hd
      rw [hd] at key2
      simp only [List.length_append, List.length_nil, List.length_cons] at key key2 ⊢
      omega
    · rename_i d after hd
      rw [hd] at key2
      simp only [List.length_append, List.length_nil, List.length_cons] at key key2 ⊢
      omega

/-- A further call of `strtok` changes characters of the buffer in place: the length stays. -/
theorem strtok_memory_next (st : StrtokState) :
    (strtok none delims st).2.memory.length = st.memory.length := by
  have key := congrArg List.length
    (List.takeWhile_append_dropWhile (fun c => decide (c ∈ delims)) st.rest)
  simp only [strtok, StrtokState.memory]
  split
  · rename_i hc
    rw [hc] at key
    simp only [List.length_append, List.length_nil] at key ⊢
    omega
  · rename_i c cs hc
    rw [hc] at key
    have key2 := congrArg List.length
      (List.takeWhile_append_dropWhile (fun x => !decide (x ∈ delims)) (c :: cs))
    split
    · rename_i hd
      rw [hd] at key2
      simp only [List.length_append, List.length_nil, List.length_cons] at key key2 ⊢
      omega
    · rename_i d after hd
      rw [hd] at key2
      simp only [List.length_append, List.length_nil, List.length_cons] at key key2 ⊢
      omega

theorem cstr_length_le (mem : List Char) : (cstr mem).length ≤ mem.length :=
  (List.takeWhile_prefix (l := mem) (fun c => decide (c ≠ NUL))).length_le

/-- The buffer `parseCommand` leaves behind has the length of the buffer it was given. -/
theorem parse_length (v : Bool) (hw : Board) (line : List Char) (o : Outcome)
    (h : parseCommand v hw line = .ok o) : o.command.length = line.length := by
  have l0 := strtok_memory_first (cstr line) ⟨[], []⟩
  have l1 := strtok_memory_next (strtok (some (cstr line)) delims ⟨[], []⟩).2
  have l2 := strtok_memory_next (strtok none delims (strtok (some (cstr line)) delims ⟨[], []⟩).2).2
  have l3 := strtok_memory_next (strtok none delims (strtok none delims
    (strtok (some (cstr line)) delims ⟨[], []⟩).2).2).2
  have hle := cstr_length_le line
  unfold parseCommand at h
  simp only [bind, Except.bind, pure, Except.pure] at h
  repeat' split at h
  all_goals (cases h <;> simp only [List.length_append, List.length_drop] <;> omega)

/-- Whenever `parseCommand` returns, it is with one of four shapes: 2 or 5 and no event; 0 and one hardware call; -1 and one hardware call followed by one `println`. -/
theorem parse_shape (v : Bool) (hw : Board) (line : List Char) (o : Outcome)
    (h : parseCommand v hw line = .ok o) :
    (o.status = 2 ∧ o.effects = []) ∨ (o.status = 5 ∧ o.effects = []) ∨
    (o.status = 0 ∧ ∃ e, o.effects = [e] ∧ e.isHardware = true) ∨
    (o.status = -1 ∧ ∃ e n, o.effects = [e, Event.println n] ∧ e.isHardware = true) := by
  unfold parseCommand at h
  simp only [bind, Except.bind, pure, Except.pure] at h
  repeat' split at h
  all_goals (cases h <;> simp [Event.isHardware])

/-- A line without any token: the null pointer reaches `strcmp`. -/
theorem parse_noToken (v : Bool) (hw : Board) (line : List Char)
    (htok : tokens (cstr line) = []) :
    parseCommand v hw line = .error Fault.nullPointer := by
  obtain ⟨h0, h1, -, -⟩ := strtok_chain (cstr line)
  rw [htok] at h0 h1
  cases v <;> simp [parseCommand, h0, h1, deref, bind, Except.bind, pure, Except.pure]

/-- Marker check on, first token other than `VMX`: status 2, no event. -/
theorem parse_badMarker (hw : Board) (line t : List Char) (ts : List (List Char))
    (htok : tokens (cstr line) = t :: ts) (hne : t ≠ strVMX) :
    ∃ buf, parseCommand true hw line = .ok ⟨2, [], buf⟩ := by
  obtain ⟨h0, -, -, -⟩ := strtok_chain (cstr line)
  rw [htok] at h0
  have hn : NUL ∉ t := token_no_NUL line t (by simp [htok])
  have hs : strcmp t strVMX ≠ 0 := by
    rw [Ne, strcmp_eq_zero_iff t strVMX hn (by decide)]
    exact hne
  simp [parseCommand, h0, deref, bind, Except.bind, pure, Except.pure, hs]

/-- A line that passes the marker check and has no second token: the null pointer reaches `strcmp`. -/
theorem parse_noOpcode (v : Bool) (hw : Board) (line t0 : List Char)
    (htok : tokens (cstr line) = [t0]) (hv : v = true → t0 = strVMX) :
    parseCommand v hw line = .error Fault.nullPointer := by
  obtain ⟨h0, h1, -, -⟩ := strtok_chain (cstr line)
  rw [htok] at h0 h1
  cases v
  · simp [parseCommand, h0, h1, deref, bind, Except.bind, pure, Except.pure]
  · simp [parseCommand, h0, h1, deref, bind, Except.bind, pure, Except.pure, hv rfl, strcmp_self]

/-- A second token that is none of the five opcodes: status 5, no event. -/
theorem parse_unknown (v : Bool) (hw : Board) (line t0 op : List Char) (ts : List (List Char))
    (htok : tokens (cstr line) = t0 :: op :: ts) (hv : v = true → t0 = strVMX)
    (hop : op ∉ [strPINMODE, strDIGITALWRITE, strDIGITALREAD, strANALOGWRITE, strANALOGREAD]) :
    ∃ buf, parseCommand v hw line = .ok ⟨5, [], buf⟩ := by
  obtain ⟨h0, h1, -, -⟩ := strtok_chain (cstr line)
  rw [htok] at h0 h1
  have hn : NUL ∉ op := token_no_NUL line op (by simp [htok])
  simp only [List.mem_cons, List.mem_singleton, List.not_mem_nil, or_false, not_or] at hop
  have e1 := strcmp_eq_zero_iff op strPINMODE hn (by decide)
  have e2 := strcmp_eq_zero_iff op strDIGITALWRITE hn (by decide)
  have e3 := strcmp_eq_zero_iff op strDIGITALREAD hn (by decide)
  have e4 := strcmp_eq_zero_iff op strANALOGWRITE hn (by decide)
  have e5 := strcmp_eq_zero_iff op strANALOGREAD hn (by decide)
  cases v
  · simp [parseCommand, h0, h1, deref, bind, Except.bind, pure, Except.pure, e1, e2, e3, e4, e5, hop]
  · simp [parseCommand, h0, h1, deref, bind, Except.bind, pure, Except.pure, hv rfl, strcmp_self,
      e1, e2, e3, e4, e5, hop]

/-- PINMODE with both argument tokens. -/
theorem parse_pinMode (v : Bool) (hw : Board) (line t0 pin modeStr : List Char)
    (ts : List (List Char))
    (htok : tokens (cstr line) = t0 :: strPINMODE :: pin :: modeStr :: ts)
    (hv : v = true → t0 = strVMX) :
    ∃ buf, parseCommand v hw line = .ok ⟨0, [Event.pinMode (atoi hw.intBits pin)
      (if modeStr = strOUTPUT then OUTPUT else if modeStr = strINPUT then INPUT
       else INPUT_PULLUP)], buf⟩ := by
  obtain ⟨h0, h1, h2, h3⟩ := strtok_chain (cstr line)
  rw [htok] at h0 h1 h2 h3
  have hn : NUL ∉ modeStr := token_no_NUL line modeStr (by simp [htok])
  have e1 := strcmp_eq_zero_iff modeStr strOUTPUT hn (by decide)
  have e2 := strcmp_eq_zero_iff modeStr strINPUT hn (by decide)
  cases v
  · simp [parseCommand, h0, h1, h2, h3, deref, bind, Except.bind, pure, Except.pure,
      strcmp_self, e1, e2]
  · simp [parseCommand, h0, h1, h2, h3, deref, bind, Except.bind, pure, Except.pure,
      strcmp_self, e1, e2, hv rfl]

/-- DIGITALWRITE with both argument tokens: the level passed is the value of `strcmp(levelStr, "LOW")`. -/
theorem parse_digitalWrite (v : Bool) (hw : Board) (line t0 pin levelStr : List Char)
    (ts : List (List Char))
    (htok : tokens (cstr line) = t0 :: strDIGITALWRITE :: pin :: levelStr :: ts)
    (hv : v = true → t0 = strVMX) :
    ∃ buf, parseCommand v hw line =
      .ok ⟨0, [Event.digitalWrite (atoi hw.intBits pin) (strcmp levelStr strLOW)], buf⟩ := by
  obtain ⟨h0, h1, h2, h3⟩ := strtok_chain (cstr line)
  rw [htok] at h0 h1 h2 h3
  have d1 : strcmp strDIGITALWRITE strPINMODE ≠ 0 := by decide
  cases v
  · simp [parseCommand, h0, h1, h2, h3, deref, bind, Except.bind, pure, Except.pure,
      strcmp_self, d1]
  · simp [parseCommand, h0, h1, h2, h3, deref, bind, Except.bind, pure, Except.pure,
      strcmp_self, d1, hv rfl]

/-- DIGITALREAD with its argument token. -/
theorem parse_digitalRead (v : Bool) (hw : Board) (line t0 pin : List Char)
    (ts : List (List Char))
    (htok : tokens (cstr line) = t0 :: strDIGITALREAD :: pin :: ts)
    (hv : v = true → t0 = strVMX) :
    ∃ buf, parseCommand v hw line =
      .ok ⟨-1, [Event.digitalRead (atoi hw.intBits pin),
                Event.println (hw.digitalRead (atoi hw.intBits pin))], buf⟩ := by
  obtain ⟨h0, h1, h2, -⟩ := strtok_chain (cstr line)
  rw [htok] at h0 h1 h2
  have d2 : strcmp strDIGITALREAD strPINMODE ≠ 0 := by decide
  have d3 : strcmp strDIGITALREAD strDIGITALWRITE ≠ 0 := by decide
  cases v
  · simp [parseCommand, h0, h1, h2, deref, bind, Except.bind, pure, Except.pure,
      strcmp_self, d2, d3]
  · simp [parseCommand, h0, h1, h2, deref, bind, Except.bind, pure, Except.pure,
      strcmp_self, d2, d3, hv rfl]

/-- ANALOGWRITE with both argument tokens. -/
theorem parse_analogWrite (v : Bool) (hw : Board) (line t0 pin value : List Char)
    (ts : List (List Char))
    (htok : tokens (cstr line) = t0 :: strANALOGWRITE :: pin :: value :: ts)
    (hv : v = true → t0 = strVMX) :
    ∃ buf, parseCommand v hw line =
      .ok ⟨0, [Event.analogWrite (atoi hw.intBits pin) (atoi hw.intBits value)], buf⟩ := by
  obtain ⟨h0, h1, h2, h3⟩ := strtok_chain (cstr line)
  rw [htok] at h0 h1 h2 h3
  have d4 : strcmp strANALOGWRITE strPINMODE ≠ 0 := by decide
  have d5 : strcmp strANALOGWRITE strDIGITALWRITE ≠ 0 := by decide
  have d6 : strcmp strANALOGWRITE strDIGITALREAD ≠ 0 := by decide
  cases v
  · simp [parseCommand, h0, h1, h2, h3, deref, bind, Except.bind, pure, Except.pure,
      strcmp_self, d4, d5, d6]
  · simp [parseCommand, h0, h1, h2, h3, deref, bind, Except.bind, pure, Except.pure,
      strcmp_self, d4, d5, d6, hv rfl]

/-- ANALOGREAD with its argument token. -/
theorem parse_analogRead (v : Bool) (hw : Board) (line t0 pin : List Char)
    (ts : List (List Char))
    (htok : tokens (cstr line) = t0 :: strANALOGREAD :: pin :: ts)
    (hv : v = true → t0 = strVMX) :
    ∃ buf, parseCommand v hw line =
      .ok ⟨-1, [Event.analogRead (atoi hw.intBits pin),
                Event.println (hw.analogRead (atoi hw.intBits pin))], buf⟩ := by
  obtain ⟨h0, h1, h2, -⟩ := strtok_chain (cstr line)
  rw [htok] at h0 h1 h2
  have d7 : strcmp strANALOGREAD strPINMODE ≠ 0 := by decide
  have d8 : strcmp strANALOGREAD strDIGITALWRITE ≠ 0 := by decide
  have d9 : strcmp strANALOGREAD strDIGITALREAD ≠ 0 := by decide
  have d10 : strcmp strANALOGREAD strANALOGWRITE ≠ 0 := by decide
  cases v
  · simp [parseCommand, h0, h1, h2, deref, bind, Except.bind, pure, Except.pure,
      strcmp_self, d7, d8, d9, d10]
  · simp [parseCommand, h0, h1, h2, deref, bind, Except.bind, pure, Except.pure,
      strcmp_self, d7, d8, d9, d10, hv rfl]

/-- A recognised opcode with fewer argument tokens than it reads: the null pointer reaches `atoi` or `strcmp`. -/
theorem parse_short (v : Bool) (hw : Board) (line t0 op : List Char)
    (args : List (List Char))
    (htok : tokens (cstr line) = t0 :: op :: args) (hv : v = true → t0 = strVMX)
    (hshort : args.length < operandCount op) :
    parseCommand v hw line = .error Fault.nullPointer := by
  obtain ⟨h0, h1, h2, h3⟩ := strtok_chain (cstr line)
  rw [htok] at h0 h1 h2 h3
  have d1 : strcmp strDIGITALWRITE strPINMODE ≠ 0 := by decide
  have d2 : strcmp strDIGITALREAD strPINMODE ≠ 0 := by decide
  have d3 : strcmp strDIGITALREAD strDIGITALWRITE ≠ 0 := by decide
  have d4 : strcmp strANALOGWRITE strPINMODE ≠ 0 := by decide
  have d5 : strcmp strANALOGWRITE strDIGITALWRITE ≠ 0 := by decide
  have d6 : strcmp strANALOGWRITE strDIGITALREAD ≠ 0 := by decide
  have d7 : strcmp strANALOGREAD strPINMODE ≠ 0 := by decide
  have d8 : strcmp strANALOGREAD strDIGITALWRITE ≠ 0 := by decide
  have d9 : strcmp strANALOGREAD strDIGITALREAD ≠ 0 := by decide
  have d10 : strcmp strANALOGREAD strANALOGWRITE ≠ 0 := by decide
  have hv2 : v = true → strcmp t0 strVMX = 0 := fun h => by rw [hv h]; exact strcmp_self _
  unfold operandCount at hshort
  split_ifs at hshort with c1 c2 c3 c4 c5
  all_goals first
    | omega
    | (subst op
       rcases args with _ | ⟨a, _ | ⟨b, r⟩⟩
       all_goals first
         | (simp only [List.length_cons, List.length_nil] at hshort; omega)
         | (cases v <;> simp [parseCommand, h0, h1, h2, h3, deref, bind, Except.bind, pure,
              Except.pure, strcmp_self, hv2, d1, d2, d3, d4, d5, d6, d7, d8, d9, d10]))

/-- On a line that supplies every token read, `parseCommand` returns. -/
theorem parse_total (v : Bool) (hw : Board) (line : List Char)
    (h : suppliesAll v (tokens (cstr line)) = true) :
    ∃ o, parseCommand v hw line = .ok o := by
  rcases htok : tokens (cstr line) with _ | ⟨t0, more⟩
  · rw [htok] at h; simp [suppliesAll] at h
  · rw [htok] at h
    by_cases hbad : v = true ∧ t0 ≠ strVMX
    · obtain ⟨hv, hne⟩ := hbad
      subst hv
      obtain ⟨buf, hb⟩ := parse_badMarker hw line t0 more htok hne
      exact ⟨_, hb⟩
    · have hv : v = true → t0 = strVMX := fun hv => by
        by_contra hne
        exact hbad ⟨hv, hne⟩
      have hcond : (v && decide (t0 ≠ strVMX)) = false := by
        cases v
        · rfl
        · simp [hv rfl]
      rcases more with _ | ⟨op, args⟩
      · simp only [suppliesAll, hcond, Bool.false_eq_true, if_false] at h
      · simp only [suppliesAll, hcond, Bool.false_eq_true, if_false, decide_eq_true_eq] at h
        by_cases c1 : op = strPINMODE
        · subst c1
          rcases args with _ | ⟨a, _ | ⟨b, r⟩⟩
          · simp [operandCount] at h
          · simp [operandCount] at h
          · obtain ⟨buf, hb⟩ := parse_pinMode v hw line t0 a b r htok hv
            exact ⟨_, hb⟩
        by_cases c2 : op = strDIGITALWRITE
        · subst c2
          rcases args with _ | ⟨a, _ | ⟨b, r⟩⟩
          · simp [operandCount, strDIGITALWRITE, strPINMODE] at h
          · simp [operandCount, strDIGITALWRITE, strPINMODE] at h
          · obtain ⟨buf, hb⟩ := parse_digitalWrite v hw line t0 a b r htok hv
            exact ⟨_, hb⟩
        by_cases c3 : op = strDIGITALREAD
        · subst c3
          rcases args with _ | ⟨a, r⟩
          · simp [operandCount, strDIGITALREAD, strDIGITALWRITE, strPINMODE] at h
          · obtain ⟨buf, hb⟩ := parse_digitalRead v hw line t0 a r htok hv
            exact ⟨_, hb⟩
        by_cases c4 : op = strANALOGWRITE
        · subst c4
          rcases args with _ | ⟨a, _ | ⟨b, r⟩⟩
          · simp [operandCount, strANALOGWRITE, strDIGITALREAD, strDIGITALWRITE, strPINMODE] at h
          · simp [operandCount, strANALOGWRITE, strDIGITALREAD, strDIGITALWRITE, strPINMODE] at h
          · obtain ⟨buf, hb⟩ := parse_analogWrite v hw line t0 a b r htok hv
            exact ⟨_, hb⟩
        by_cases c5 : op = strANALOGREAD
        · subst c5
          rcases args with _ | ⟨a, r⟩
          · simp [operandCount, strANALOGREAD, strANALOGWRITE, strDIGITALREAD, strDIGITALWRITE,
              strPINMODE] at h
          · obtain ⟨buf, hb⟩ := parse_analogRead v hw line t0 a r htok hv
            exact ⟨_, hb⟩
        obtain ⟨buf, hb⟩ := parse_unknown v hw line t0 op args htok hv (by simp [c1, c2, c3, c4, c5])
        exact ⟨_, hb⟩

/-- On a line that does not supply every token read, `parseCommand` hands the null pointer to `strcmp` or `atoi`. -/
theorem parse_incomplete (v : Bool) (hw : Board) (line : List Char)
    (h : suppliesAll v (tokens (cstr line)) = false) :
    parseCommand v hw line = .error Fault.nullPointer := by
  rcases htok : tokens (cstr line) with _ | ⟨t0, more⟩
  · exact parse_noToken v hw line htok
  · rw [htok] at h
    by_cases hbad : v = true ∧ t0 ≠ strVMX
    · obtain ⟨hv, hne⟩ := hbad
      simp [suppliesAll, hv, hne] at h
    · have hv : v = true → t0 = strVMX := fun hv => by
        by_contra hne
        exact hbad ⟨hv, hne⟩
      have hcond : (v && decide (t0 ≠ strVMX)) = false := by
        cases v
        · rfl
        · simp [hv rfl]
      rcases more with _ | ⟨op, args⟩
      · exact parse_noOpcode v hw line t0 htok hv
      · simp only [suppliesAll, hcond, Bool.false_eq_true, if_false, decide_eq_false_iff_not,
          not_le] at h
        exact parse_short v hw line t0 op args htok hv h

/-! ## Lines written as space-separated fields -/

/-- A word followed by a space: `strtok` returns the word, overwrites the space and saves the pointer behind it. -/
theorem strtok_word_then_space (w rest : List Char) (saved : StrtokState)
    (hne : w ≠ []) (hw : ∀ c ∈ w, c ≠ ' ') :
    strtok (some (w ++ ' ' :: rest)) delims saved = (some w, ⟨w ++ [NUL], rest⟩) := by
  obtain ⟨c, cs, rfl⟩ := List.exists_cons_of_ne_nil hne
  have hc : c ≠ ' ' := hw c (by simp)
  have hp : ∀ a ∈ c :: cs, (fun x => !decide (x ∈ delims)) a = true := by
    intro a ha
    simp [delims, hw a ha]
  have e1 : List.dropWhile (fun x => decide (x ∈ delims)) ((c :: cs) ++ ' ' :: rest)
      = (c :: cs) ++ ' ' :: rest := by
    simp [List.dropWhile, delims, hc]
  have e0 : List.takeWhile (fun x => decide (x ∈ delims)) ((c :: cs) ++ ' ' :: rest) = [] := by
    simp [List.takeWhile, delims, hc]
  have e2 : List.takeWhile (fun x => !decide (x ∈ delims)) ((c :: cs) ++ ' ' :: rest)
      = c :: cs := by
    rw [List.takeWhile_append_of_pos hp]
    simp [List.takeWhile, delims]
  have e3 : List.dropWhile (fun x => !decide (x ∈ delims)) ((c :: cs) ++ ' ' :: rest)
      = ' ' :: rest := by
    rw [List.dropWhile_append_of_pos hp]
    simp [List.dropWhile, delims]
  unfold strtok
  simp only [e0, e1]
  simp only [List.cons_append] at e2 e3 ⊢
  simp only [e2, e3]
  simp

/-- A word that ends the string: `strtok` returns it and saves the pointer at the end. -/
theorem strtok_last_word (w : List Char) (saved : StrtokState)
    (hne : w ≠ []) (hw : ∀ c ∈ w, c ≠ ' ') :
    strtok (some w) delims saved = (some w, ⟨w, []⟩) := by
  obtain ⟨c, cs, rfl⟩ := List.exists_cons_of_ne_nil hne
  have hc : c ≠ ' ' := hw c (by simp)
  have hp : ∀ a ∈ c :: cs, (fun x => !decide (x ∈ delims)) a = true := by
    intro a ha
    simp [delims, hw a ha]
  have e1 : List.dropWhile (fun x => decide (x ∈ delims)) (c :: cs) = c :: cs := by
    simp [List.dropWhile, delims, hc]
  have e0 : List.takeWhile (fun x => decide (x ∈ delims)) (c :: cs) = [] := by
    simp [List.takeWhile, delims, hc]
  have e2 : List.takeWhile (fun x => !decide (x ∈ delims)) (c :: cs) = c :: cs := by
    rw [List.takeWhile_eq_self_iff]
    exact hp
  have e3 : List.dropWhile (fun x => !decide (x ∈ delims)) (c :: cs) = [] := by
    rw [List.dropWhile_eq_nil_iff]
    exact hp
  unfold strtok
  simp only [e0, e1]
  simp only [e2, e3]
  simp

theorem tokens_word_then_space (w rest : List Char)
    (hne : w ≠ []) (hw : ∀ c ∈ w, c ≠ ' ') :
    tokens (w ++ ' ' :: rest) = w :: tokens rest := by
  obtain ⟨h1, h2⟩ := tokens_first (w ++ ' ' :: rest) ⟨[], []⟩
  rw [strtok_word_then_space w rest _ hne hw] at h1 h2
  simp only at h1 h2
  rcases h : tokens (w ++ ' ' :: rest) with _ | ⟨t, ts⟩
  · rw [h] at h1; simp at h1
  · rw [h] at h1 h2
    simp only [List.head?_cons, Option.some.injEq, List.tail_cons] at h1 h2
    rw [h1, h2]

theorem tokens_last_word (w : List Char) (hne : w ≠ []) (hw : ∀ c ∈ w, c ≠ ' ') :
    tokens w = [w] := by
  obtain ⟨h1, h2⟩ := tokens_first w ⟨[], []⟩
  rw [strtok_last_word w _ hne hw] at h1 h2
  simp only at h1 h2
  rcases h : tokens w with _ | ⟨t, ts⟩
  · rw [h] at h1; simp at h1
  · rw [h] at h1 h2
    simp only [List.head?_cons, Option.some.injEq, List.tail_cons] at h1 h2
    rw [h1, ← h2]
    rfl

/-- The tokens of space-separated fields are the fields: for non-empty words without
a space, joined by single spaces, `strtok` returns the words in order. -/
theorem tokens_fields (ws : List (List Char))
    (hws : ∀ w ∈ ws, w ≠ [] ∧ ∀ c ∈ w, c ≠ ' ') :
    tokens ([' '].intercalate ws) = ws := by
  induction ws with
  | nil => rfl
  | cons w r ih =>
    have hw := hws w (by simp)
    cases r with
    | nil =>
      simpa [List.intercalate] using tokens_last_word w hw.1 hw.2
    | cons w2 r2 =>
      have ih2 := ih (fun x hx => hws x (List.mem_cons_of_mem _ hx))
      have e : [' '].intercalate (w :: w2 :: r2) = w ++ ' ' :: [' '].intercalate (w2 :: r2) := by
        simp [List.intercalate, List.intersperse]
      rw [e, tokens_word_then_space w _ hw.1 hw.2, ih2]

theorem cstr_of_no_NUL (s : List Char) (h : NUL ∉ s) : cstr s = s := by
  unfold cstr
  rw [List.takeWhile_eq_self_iff]
  intro x hx
  simp only [ne_eq, decide_not, Bool.not_eq_eq_eq_not, Bool.not_true, decide_eq_false_iff_not]
  rintro rfl
  exact h hx

theorem mem_intercalate_space (ws : List (List Char)) (c : Char)
    (h : c ∈ [' '].intercalate ws) : c = ' ' ∨ ∃ w ∈ ws, c ∈ w := by
  induction ws with
  | nil => simp [List.intercalate] at h
  | cons w r ih =>
    cases r with
    | nil =>
      right
      exact ⟨w, by simp, by simpa [List.intercalate] using h⟩
    | cons w2 r2 =>
      have e : [' '].intercalate (w :: w2 :: r2) = w ++ ' ' :: [' '].intercalate (w2 :: r2) := by
        simp [List.intercalate, List.intersperse]
      rw [e, List.mem_append, List.mem_cons] at h
      rcases h with h | h | h
      · exact Or.inr ⟨w, by simp, h⟩
      · exact Or.inl h
      · rcases ih h with h1 | ⟨x, hx, hc⟩
        · exact Or.inl h1
        · exact Or.inr ⟨x, List.mem_cons_of_mem _ hx, hc⟩

theorem tokens_cstr_fields (ws : List (List Char))
    (hws : ∀ w ∈ ws, w ≠ [] ∧ (∀ c ∈ w, c ≠ ' ') ∧ NUL ∉ w) :
    tokens (cstr ([' '].intercalate ws)) = ws := by
  have hn : NUL ∉ [' '].intercalate ws := by
    intro h
    rcases mem_intercalate_space ws NUL h with h1 | ⟨w, hw, hc⟩
    · exact absurd h1 (by decide)
    · exact (hws w hw).2.2 hc
  rw [cstr_of_no_NUL _ hn]
  exact tokens_fields ws (fun w hw => ⟨(hws w hw).1, (hws w hw).2.1⟩)

/-! ## The accumulator step -/

theorem store_zero (command : List Char) (c : Char) :
    store command 0 c = .ok (command.set 0 c) := by
  simp [store, MAX_COMMAND_SIZE]

theorem store_one (command : List Char) (c : Char) :
    store command 1 c = .ok (command.set 1 c) := by
  simp [store, MAX_COMMAND_SIZE]

/-- The pass of `loop` that consumes a newline, when `parseCommand` returns on the array. -/
theorem loop_newline (v : Bool) (hw : Board) (g : Globals) (o : Outcome)
    (hn : NUL ∈ g.command) (h : parseCommand v hw g.command = .ok o) :
    loop v hw g (some '\n') = .ok (⟨o.command.set 0 NUL, 0⟩,
      o.effects ++ (if o.status > -1 then [Event.print strCode, Event.println o.status]
                    else [])) := by
  simp [loop, hn, h, store_zero, bind, Except.bind, pure, Except.pure]

/-- The pass of `loop` that consumes a byte other than a newline when `cmdIndex` is 0. -/
theorem loop_first_byte (v : Bool) (hw : Board) (command : List Char) (c : Char)
    (hc : c ≠ '\n') :
    loop v hw ⟨command, 0⟩ (some c) = .ok (⟨(command.set 0 c).set 1 NUL, 1⟩, []) := by
  simp [loop, hc, store_zero, store_one, bind, Except.bind, pure, Except.pure]

/-- On the statuses `parseCommand` returns, the test `errorCode > -1` is the test `errorCode != -1`. -/
theorem status_gt_iff (v : Bool) (hw : Board) (line : List Char) (o : Outcome)
    (h : parseCommand v hw line = .ok o) : o.status > -1 ↔ o.status ≠ -1 := by
  rcases parse_shape v hw line o h with h1 | h1 | h1 | h1 <;> rw [h1.1] <;> decide

/-- `parseCommand` itself never prints `code `. -/
theorem no_code_label (v : Bool) (hw : Board) (line : List Char) (o : Outcome)
    (h : parseCommand v hw line = .ok o) : ∀ e ∈ o.effects, e.isCodeLabel = false := by
  rcases parse_shape v hw line o h with h1 | h1 | h1 | h1
  · simp [h1.2]
  · simp [h1.2]
  · obtain ⟨-, e, he, hh⟩ := h1
    rw [he]
    cases e <;> simp [Event.isCodeLabel, Event.isHardware] at hh ⊢
  · obtain ⟨-, e, n, he, hh⟩ := h1
    rw [he]
    cases e <;> simp [Event.isCodeLabel, Event.isHardware] at hh ⊢

/-- C1 (counterexample): the empty line has no first token, so its first token is not
`VMX`; yet `parseCommand` does not return 2 on it: `strcmp` receives the null pointer. -/
theorem C1_empty_line_faults :
    (tokens (cstr lineEmpty)).head? ≠ some strVMX ∧
    parseCommand VMX_ONLY demoBoard lineEmpty = .error Fault.nullPointer ∧
    ¬ ∃ o, parseCommand VMX_ONLY demoBoard lineEmpty = .ok o ∧ o.status = 2 ∧ o.effects = [] := by
  have h : parseCommand VMX_ONLY demoBoard lineEmpty = .error Fault.nullPointer := rfl
  refine ⟨by decide, h, ?_⟩
  rintro ⟨o, ho, -⟩
  rw [h] at ho
  cases ho

/-- C1 (amended): with the marker check enabled, every line that has a first token and
whose first token is not exactly `VMX` makes `parseCommand` return 2 with no event at
all: no hardware call and no serial output. -/
theorem C1_bad_marker_returns_2 (hw : Board) (line t : List Char) (ts : List (List Char))
    (htok : tokens (cstr line) = t :: ts) (hne : t ≠ strVMX) :
    ∃ o, parseCommand VMX_ONLY hw line = .ok o ∧ o.status = 2 ∧ o.effects = [] ∧
      hardwareCalls o.effects = [] ∧ serialOutput o.effects = [] := by
  obtain ⟨buf, hb⟩ := parse_badMarker hw line t ts htok hne
  exact ⟨_, hb, rfl, rfl, rfl, rfl⟩

/-- C1 (witness): the line `FOO PINMODE 13 OUTPUT`. -/
theorem C1_bad_marker_witness :
    ∃ o, parseCommand VMX_ONLY demoBoard lineFoo = .ok o ∧ o.status = 2 ∧ o.effects = [] ∧
      hardwareCalls o.effects = [] ∧ serialOutput o.effects = [] :=
  C1_bad_marker_returns_2 demoBoard lineFoo ['F', 'O', 'O']
    [strPINMODE, ['1', '3'], strOUTPUT] (by rfl) (by decide)

/-- C2 (counterexample): the line `VMX` passes the marker check and has no second
token, so its opcode is none of the five; yet `parseCommand` does not return 5 on it:
`strcmp` receives the null pointer. -/
theorem C2_missing_opcode_faults :
    tokens (cstr lineMarkerOnly) = [strVMX] ∧
    parseCommand VMX_ONLY demoBoard lineMarkerOnly = .error Fault.nullPointer ∧
    ¬ ∃ o, parseCommand VMX_ONLY demoBoard lineMarkerOnly = .ok o ∧ o.status = 5 ∧
        o.effects = [] := by
  have h : parseCommand VMX_ONLY demoBoard lineMarkerOnly = .error Fault.nullPointer := rfl
  refine ⟨by rfl, h, ?_⟩
  rintro ⟨o, ho, -⟩
  rw [h] at ho
  cases ho

/-- C2 (amended): every line that passes the marker check (the check is off, or the
first token is `VMX`) and has a second token that is none of PINMODE, DIGITALWRITE,
DIGITALREAD, ANALOGWRITE, ANALOGREAD makes `parseCommand` return 5 with no event at
all, so with no hardware call. -/
theorem C2_unknown_opcode_returns_5 (vmxOnly : Bool) (hw : Board) (line t0 op : List Char)
    (ts : List (List Char))
    (htok : tokens (cstr line) = t0 :: op :: ts)
    (hpass : vmxOnly = true → t0 = strVMX)
    (hop : op ∉ [strPINMODE, strDIGITALWRITE, strDIGITALREAD, strANALOGWRITE, strANALOGREAD]) :
    ∃ o, parseCommand vmxOnly hw line = .ok o ∧ o.status = 5 ∧ o.effects = [] ∧
      hardwareCalls o.effects = [] := by
  obtain ⟨buf, hb⟩ := parse_unknown vmxOnly hw line t0 op ts htok hpass hop
  exact ⟨_, hb, rfl, rfl, rfl⟩

/-- C2 (witness): the line `VMX FROBNICATE 1 2` under the shipped configuration. -/
theorem C2_unknown_opcode_witness :
    ∃ o, parseCommand VMX_ONLY demoBoard lineFrobnicate = .ok o ∧ o.status = 5 ∧
      o.effects = [] ∧ hardwareCalls o.effects = [] :=
  C2_unknown_opcode_returns_5 VMX_ONLY demoBoard lineFrobnicate strVMX
    ['F', 'R', 'O', 'B', 'N', 'I', 'C', 'A', 'T', 'E'] [['1'], ['2']] (by rfl)
    (fun _ => rfl) (by decide)

/-- C3 (counterexample): on the line `VMX PINMODE 13` the mode token is missing;
`parseCommand` does not call `pinMode` with INPUT_PULLUP and return 0, it hands the
null pointer to `strcmp`. -/
theorem C3_missing_mode_faults :
    tokens (cstr linePinModeShort) = [strVMX, strPINMODE, ['1', '3']] ∧
    parseCommand VMX_ONLY demoBoard linePinModeShort = .error Fault.nullPointer ∧
    ¬ ∃ o, parseCommand VMX_ONLY demoBoard linePinModeShort = .ok o ∧ o.status = 0 ∧
        o.effects = [Event.pinMode 13 INPUT_PULLUP] := by
  have h : parseCommand VMX_ONLY demoBoard linePinModeShort = .error Fault.nullPointer := rfl
  refine ⟨by rfl, h, ?_⟩
  rintro ⟨o, ho, -⟩
  rw [h] at ho
  cases ho

/-- C3 (amended): for every line whose tokens are `VMX`, `PINMODE`, a pin token and a
mode token (more tokens may follow), `parseCommand` returns 0 and its only event is one
`pinMode` call on the pin `atoi` reads, with mode OUTPUT when the mode token is exactly
`OUTPUT`, INPUT when it is exactly `INPUT`, and INPUT_PULLUP for every other mode
token. -/
theorem C3_pinMode_three_way (hw : Board) (line pin modeStr : List Char)
    (ts : List (List Char))
    (htok : tokens (cstr line) = strVMX :: strPINMODE :: pin :: modeStr :: ts) :
    ∃ o, parseCommand VMX_ONLY hw line = .ok o ∧ o.status = 0 ∧
      o.effects = [Event.pinMode (atoi hw.intBits pin)
        (if modeStr = strOUTPUT then OUTPUT
         else if modeStr = strINPUT then INPUT else INPUT_PULLUP)] ∧
      (hardwareCalls o.effects).length = 1 := by
  obtain ⟨buf, hb⟩ := parse_pinMode VMX_ONLY hw line strVMX pin modeStr ts htok (fun _ => rfl)
  exact ⟨_, hb, rfl, rfl, rfl⟩

/-- C3 (witness): the line `VMX PINMODE 13 output`, whose lower-case mode token falls
to INPUT_PULLUP. -/
theorem C3_pinMode_witness :
    ∃ o, parseCommand VMX_ONLY demoBoard linePinModeLower = .ok o ∧ o.status = 0 ∧
      o.effects = [Event.pinMode (atoi demoBoard.intBits ['1', '3'])
        (if ['o', 'u', 't', 'p', 'u', 't'] = strOUTPUT then OUTPUT
         else if ['o', 'u', 't', 'p', 'u', 't'] = strINPUT then INPUT else INPUT_PULLUP)] ∧
      (hardwareCalls o.effects).length = 1 :=
  C3_pinMode_three_way demoBoard linePinModeLower ['1', '3'] ['o', 'u', 't', 'p', 'u', 't'] []
    (by rfl)

/-- C4 (the code at the failing input): on the line `VMX DIGITALWRITE 13 HIGH` the one
hardware call is `digitalWrite(13, -4)`: the level passed is the value of
`strcmp("HIGH", "LOW")`, which is not HIGH = 1. -/
theorem C4_digitalWrite_HIGH_passes_strcmp_value :
    ∃ o, parseCommand VMX_ONLY demoBoard lineWriteHigh = .ok o ∧ o.status = 0 ∧
      o.effects = [Event.digitalWrite 13 (-4)] ∧
      o.effects ≠ [Event.digitalWrite 13 HIGH] ∧
      strcmp ['H', 'I', 'G', 'H'] strLOW = -4 :=
  ⟨_, rfl, rfl, rfl, by decide, by decide⟩

/-- C5: when the array holds a line whose tokens are `VMX`, `DIGITALREAD` (or
`ANALOGREAD`) and a pin token, then whatever the board returns for the read,
`parseCommand` returns -1 after the read call and one `println` of the value read, and
consuming the newline produces exactly these two events: the serial output is that
one value line, with no `code` line. -/
theorem C5_reads_print_value_only (hw : Board) (g : Globals) (op pin : List Char)
    (ts : List (List Char)) (hn : NUL ∈ g.command)
    (htok : tokens (cstr g.command) = strVMX :: op :: pin :: ts)
    (hop : op = strDIGITALREAD ∨ op = strANALOGREAD) :
    ∃ o g1 ev call value,
      parseCommand VMX_ONLY hw g.command = .ok o ∧ o.status = -1 ∧
      loop VMX_ONLY hw g (some '\n') = .ok (g1, ev) ∧
      ev = [call, Event.println value] ∧ o.effects = ev ∧
      serialOutput ev = [Event.println value] ∧
      (∀ e ∈ ev, e.isCodeLabel = false) ∧
      (op = strDIGITALREAD → call = Event.digitalRead (atoi hw.intBits pin) ∧
        value = hw.digitalRead (atoi hw.intBits pin)) ∧
      (op = strANALOGREAD → call = Event.analogRead (atoi hw.intBits pin) ∧
        value = hw.analogRead (atoi hw.intBits pin)) := by
  rcases hop with rfl | rfl
  · obtain ⟨buf, hb⟩ := parse_digitalRead VMX_ONLY hw g.command strVMX pin ts htok (fun _ => rfl)
    have hl := loop_newline VMX_ONLY hw g _ hn hb
    refine ⟨_, _, _, Event.digitalRead (atoi hw.intBits pin),
      hw.digitalRead (atoi hw.intBits pin), hb, rfl, hl, ?_, ?_, ?_, ?_, ?_, ?_⟩
    · simp
    · simp
    · simp [serialOutput, Event.isHardware]
    · simp [Event.isCodeLabel]
    · intro _; exact ⟨rfl, rfl⟩
    · intro h; exact absurd h (by decide)
  · obtain ⟨buf, hb⟩ := parse_analogRead VMX_ONLY hw g.command strVMX pin ts htok (fun _ => rfl)
    have hl := loop_newline VMX_ONLY hw g _ hn hb
    refine ⟨_, _, _, Event.analogRead (atoi hw.intBits pin),
      hw.analogRead (atoi hw.intBits pin), hb, rfl, hl, ?_, ?_, ?_, ?_, ?_, ?_⟩
    · simp
    · simp
    · simp [serialOutput, Event.isHardware]
    · simp [Event.isCodeLabel]
    · intro h; exact absurd h (by decide)
    · intro _; exact ⟨rfl, rfl⟩

/-- C5 (witness): the array holds `VMX DIGITALREAD 7`. -/
theorem C5_reads_witness :
    ∃ o g1 ev call value,
      parseCommand VMX_ONLY demoBoard (holding lineDigitalRead).command = .ok o ∧
      o.status = -1 ∧
      loop VMX_ONLY demoBoard (holding lineDigitalRead) (some '\n') = .ok (g1, ev) ∧
      ev = [call, Event.println value] ∧ o.effects = ev ∧
      serialOutput ev = [Event.println value] ∧
      (∀ e ∈ ev, e.isCodeLabel = false) ∧
      (strDIGITALREAD = strDIGITALREAD → call = Event.digitalRead (atoi demoBoard.intBits ['7']) ∧
        value = demoBoard.digitalRead (atoi demoBoard.intBits ['7'])) ∧
      (strDIGITALREAD = strANALOGREAD → call = Event.analogRead (atoi demoBoard.intBits ['7']) ∧
        value = demoBoard.analogRead (atoi demoBoard.intBits ['7'])) :=
  C5_reads_print_value_only demoBoard (holding lineDigitalRead) strDIGITALREAD ['7'] []
    (by decide) (by rfl) (Or.inl rfl)

/-- C6: when the array holds a line whose tokens are `VMX`, one of PINMODE,
DIGITALWRITE, ANALOGWRITE, and two argument tokens (more may follow), `parseCommand`
returns 0 after exactly one hardware call, and consuming the newline produces that call
followed by `Serial.print("code ")` and `Serial.println(0)`: the serial output is the
one line `code 0` and nothing else. -/
theorem C6_two_argument_opcodes_print_code_0 (hw : Board) (g : Globals)
    (op a1 a2 : List Char) (ts : List (List Char)) (hn : NUL ∈ g.command)
    (htok : tokens (cstr g.command) = strVMX :: op :: a1 :: a2 :: ts)
    (hop : op ∈ [strPINMODE, strDIGITALWRITE, strANALOGWRITE]) :
    ∃ o g1 call,
      parseCommand VMX_ONLY hw g.command = .ok o ∧ o.status = 0 ∧
      o.effects = [call] ∧ call.isHardware = true ∧
      loop VMX_ONLY hw g (some '\n') =
        .ok (g1, [call, Event.print strCode, Event.println 0]) ∧
      serialOutput [call, Event.print strCode, Event.println 0] =
        [Event.print strCode, Event.println 0] := by
  simp only [List.mem_cons, List.mem_singleton, List.not_mem_nil, or_false] at hop
  have fin : ∀ o call, parseCommand VMX_ONLY hw g.command = .ok o → o.status = 0 →
      o.effects = [call] → call.isHardware = true →
      ∃ o g1 call,
        parseCommand VMX_ONLY hw g.command = .ok o ∧ o.status = 0 ∧
        o.effects = [call] ∧ call.isHardware = true ∧
        loop VMX_ONLY hw g (some '\n') =
          .ok (g1, [call, Event.print strCode, Event.println 0]) ∧
        serialOutput [call, Event.print strCode, Event.println 0] =
          [Event.print strCode, Event.println 0] := by
    intro o call ho hs he hh
    have hl := loop_newline VMX_ONLY hw g o hn ho
    rw [hs, he] at hl
    refine ⟨o, _, call, ho, hs, he, hh, hl, ?_⟩
    have h1 : Event.isHardware (Event.print strCode) = false := rfl
    have h2 : Event.isHardware (Event.println 0) = false := rfl
    simp [serialOutput, List.filter_cons, hh, h1, h2]
  rcases hop with rfl | rfl | rfl
  · obtain ⟨buf, hb⟩ := parse_pinMode VMX_ONLY hw g.command strVMX a1 a2 ts htok (fun _ => rfl)
    exact fin _ _ hb rfl rfl rfl
  · obtain ⟨buf, hb⟩ := parse_digitalWrite VMX_ONLY hw g.command strVMX a1 a2 ts htok
      (fun _ => rfl)
    exact fin _ _ hb rfl rfl rfl
  · obtain ⟨buf, hb⟩ := parse_analogWrite VMX_ONLY hw g.command strVMX a1 a2 ts htok
      (fun _ => rfl)
    exact fin _ _ hb rfl rfl rfl

/-- C6 (witness): the array holds `VMX ANALOGWRITE 9 128`. -/
theorem C6_two_argument_witness :
    ∃ o g1 call,
      parseCommand VMX_ONLY demoBoard (holding lineAnalogWrite).command = .ok o ∧
      o.status = 0 ∧ o.effects = [call] ∧ call.isHardware = true ∧
      loop VMX_ONLY demoBoard (holding lineAnalogWrite) (some '\n') =
        .ok (g1, [call, Event.print strCode, Event.println 0]) ∧
      serialOutput [call, Event.print strCode, Event.println 0] =
        [Event.print strCode, Event.println 0] :=
  C6_two_argument_opcodes_print_code_0 demoBoard (holding lineAnalogWrite) strANALOGWRITE
    ['9'] ['1', '2', '8'] [] (by decide) (by rfl) (by decide)

/-- C7 (the code at the failing input): from the start-up state, 49 bytes `A` are
stored without a fault and leave `cmdIndex = 49`; the 50th byte `A` is stored at index
49 and the terminator that follows it is written to `command[50]`, outside the array
of MAX_COMMAND_SIZE = 50 characters. -/
theorem C7_fiftieth_byte_writes_past_the_array :
    (∃ g, run VMX_ONLY demoBoard initial (List.replicate 49 'A') = .ok (g, []) ∧
      g.cmdIndex = 49 ∧ g.command.length = MAX_COMMAND_SIZE ∧
      loop VMX_ONLY demoBoard g (some 'A') = .error (Fault.outOfBounds 50)) ∧
    run VMX_ONLY demoBoard initial (List.replicate 50 'A') =
      .error (Fault.outOfBounds (MAX_COMMAND_SIZE : Int)) :=
  ⟨⟨_, rfl, rfl, rfl, rfl⟩, rfl⟩

/-- C8: for every state of the globals whose array (of MAX_COMMAND_SIZE characters,
holding a terminator) `parseCommand` returns on, whatever the outcome, consuming a
newline leaves `cmdIndex = 0` and the terminator in `command[0]`, so the array holds
the empty string; the next byte other than a newline is then stored in `command[0]`,
with `cmdIndex = 1` and no event. -/
theorem C8_newline_resets_buffer (vmxOnly : Bool) (hw : Board) (g : Globals) (o : Outcome)
    (hlen : g.command.length = MAX_COMMAND_SIZE) (hn : NUL ∈ g.command)
    (ho : parseCommand vmxOnly hw g.command = .ok o) :
    ∃ g1 ev, loop vmxOnly hw g (some '\n') = .ok (g1, ev) ∧
      g1.cmdIndex = 0 ∧ g1.command.head? = some NUL ∧ cstr g1.command = [] ∧
      g1.command.length = MAX_COMMAND_SIZE ∧
      ∀ c : Char, c ≠ '\n' →
        ∃ g2, loop vmxOnly hw g1 (some c) = .ok (g2, []) ∧
          g2.command.head? = some c ∧ g2.cmdIndex = 1 := by
  have hl := loop_newline vmxOnly hw g o hn ho
  have hlo := parse_length vmxOnly hw g.command o ho
  rw [hlen] at hlo
  rcases hoc : o.command with _ | ⟨x, xs⟩
  · rw [hoc] at hlo; simp [MAX_COMMAND_SIZE] at hlo
  · rw [hoc] at hl hlo
    refine ⟨_, _, hl, rfl, ?_, ?_, ?_, ?_⟩
    · simp
    · simp [cstr]
    · simpa using hlo
    · intro c hc
      refine ⟨_, loop_first_byte vmxOnly hw _ c hc, ?_, rfl⟩
      rcases xs with _ | ⟨y, ys⟩ <;> simp

/-- C8 (witness): the array holds `FOO PINMODE 13 OUTPUT`, on which the outcome is
status 2. -/
theorem C8_newline_resets_witness :
    ∃ g1 ev, loop VMX_ONLY demoBoard (holding lineFoo) (some '\n') = .ok (g1, ev) ∧
      g1.cmdIndex = 0 ∧ g1.command.head? = some NUL ∧ cstr g1.command = [] ∧
      g1.command.length = MAX_COMMAND_SIZE ∧
      ∀ c : Char, c ≠ '\n' →
        ∃ g2, loop VMX_ONLY demoBoard g1 (some c) = .ok (g2, []) ∧
          g2.command.head? = some c ∧ g2.cmdIndex = 1 :=
  C8_newline_resets_buffer VMX_ONLY demoBoard (holding lineFoo)
    ⟨2, [], (holding lineFoo).command.set 3 NUL⟩ (by rfl) (by decide) (by rfl)

/-- C9 (counterexample): on the line `VMX ANALOGWRITE 9` the value token is missing and
`parseCommand` returns no status at all: `atoi` receives the null pointer. -/
theorem C9_short_line_returns_no_status :
    parseCommand VMX_ONLY demoBoard lineAnalogWriteShort = .error Fault.nullPointer ∧
    ¬ ∃ o, parseCommand VMX_ONLY demoBoard lineAnalogWriteShort = .ok o := by
  have h : parseCommand VMX_ONLY demoBoard lineAnalogWriteShort = .error Fault.nullPointer :=
    rfl
  refine ⟨h, ?_⟩
  rintro ⟨o, ho⟩
  rw [h] at ho
  cases ho

/-- C9 (amended): for every line that supplies every token `parseCommand` reads (a
first token and, unless the marker check rejects it, an opcode token and the one or
two argument tokens a recognised opcode consumes), `parseCommand` returns a status in
0, 2, 5, -1, with exactly one hardware call when the status is 0 or -1 and none when
it is 2 or 5. -/
theorem C9_status_and_call_count (hw : Board) (line : List Char)
    (hsup : suppliesAll VMX_ONLY (tokens (cstr line)) = true) :
    ∃ o, parseCommand VMX_ONLY hw line = .ok o ∧
      (o.status = 0 ∨ o.status = 2 ∨ o.status = 5 ∨ o.status = -1) ∧
      ((o.status = 0 ∨ o.status = -1) → (hardwareCalls o.effects).length = 1) ∧
      ((o.status = 2 ∨ o.status = 5) → (hardwareCalls o.effects).length = 0) := by
  obtain ⟨o, ho⟩ := parse_total VMX_ONLY hw line hsup
  refine ⟨o, ho, ?_⟩
  rcases parse_shape VMX_ONLY hw line o ho with h | h | h | h
  · obtain ⟨hs, he⟩ := h
    simp [hs, he, hardwareCalls]
  · obtain ⟨hs, he⟩ := h
    simp [hs, he, hardwareCalls]
  · obtain ⟨hs, e, he, hh⟩ := h
    simp [hs, he, hardwareCalls, hh]
  · obtain ⟨hs, e, n, he, hh⟩ := h
    have h1 : Event.isHardware (Event.println n) = false := rfl
    simp [hs, he, hardwareCalls, List.filter_cons, hh, h1]

/-- C9 (witness): the line `VMX DIGITALREAD 7`. -/
theorem C9_status_witness :
    ∃ o, parseCommand VMX_ONLY demoBoard lineDigitalRead = .ok o ∧
      (o.status = 0 ∨ o.status = 2 ∨ o.status = 5 ∨ o.status = -1) ∧
      ((o.status = 0 ∨ o.status = -1) → (hardwareCalls o.effects).length = 1) ∧
      ((o.status = 2 ∨ o.status = 5) → (hardwareCalls o.effects).length = 0) :=
  C9_status_and_call_count demoBoard lineDigitalRead (by rfl)

/-- C10: whenever `parseCommand` returns on the line the array holds, consuming the
newline produces the events of `parseCommand` followed by `Serial.print("code ")` and
`Serial.println(N)` when the status N is not -1, and produces the events of
`parseCommand` alone when N is -1; `parseCommand` itself never prints `code `, so a
`code` line is printed exactly when N is not -1. -/
theorem C10_code_line_iff_not_sentinel (vmxOnly : Bool) (hw : Board) (g : Globals)
    (o : Outcome) (hn : NUL ∈ g.command)
    (ho : parseCommand vmxOnly hw g.command = .ok o) :
    ∃ g1 ev, loop vmxOnly hw g (some '\n') = .ok (g1, ev) ∧
      (o.status ≠ -1 → ev = o.effects ++ [Event.print strCode, Event.println o.status]) ∧
      (o.status = -1 → ev = o.effects) ∧
      (∀ e ∈ o.effects, e.isCodeLabel = false) ∧
      ((∃ e ∈ ev, e.isCodeLabel = true) ↔ o.status ≠ -1) := by
  have hl := loop_newline vmxOnly hw g o hn ho
  have hgt := status_gt_iff vmxOnly hw g.command o ho
  have hnc := no_code_label vmxOnly hw g.command o ho
  refine ⟨_, _, hl, ?_, ?_, hnc, ?_⟩
  · intro h
    rw [if_pos (hgt.mpr h)]
  · intro h
    rw [if_neg (fun hc => (hgt.mp hc) h)]
    simp
  · by_cases h : o.status = -1
    · rw [if_neg (fun hc => (hgt.mp hc) h)]
      simp only [List.append_nil, h, ne_eq, not_true_eq_false, iff_false, not_exists, not_and]
      intro e he
      simp [hnc e he]
    · rw [if_pos (hgt.mpr h)]
      simp only [ne_eq, h, not_false_eq_true, iff_true]
      exact ⟨Event.print strCode, by simp, by simp [Event.isCodeLabel]⟩

/-- C10 (witness): the array holds `VMX FROBNICATE 1 2`, on which the status is 5. -/
theorem C10_code_line_witness :
    ∃ g1 ev, loop VMX_ONLY demoBoard (holding lineFrobnicate) (some '\n') = .ok (g1, ev) ∧
      ((5 : Int) ≠ -1 → ev = [] ++ [Event.print strCode, Event.println 5]) ∧
      ((5 : Int) = -1 → ev = []) ∧
      (∀ e ∈ ([] : List Event), e.isCodeLabel = false) ∧
      ((∃ e ∈ ev, e.isCodeLabel = true) ↔ (5 : Int) ≠ -1) :=
  C10_code_line_iff_not_sentinel VMX_ONLY demoBoard (holding lineFrobnicate)
    ⟨5, [], ((holding lineFrobnicate).command.set 3 NUL).set 14 NUL⟩ (by decide) (by rfl)

/-! ## The report of `parseCommand` is fixed by the tokens -/

/-- Two lines that pass the marker check (each under its own setting of the switch)
and have the same tokens after the first one give the same status and events. -/
theorem parse_report_passed (va vb : Bool) (hw : Board) (a b t0a t0b : List Char)
    (rest : List (List Char))
    (hta : tokens (cstr a) = t0a :: rest) (htb : tokens (cstr b) = t0b :: rest)
    (hva : va = true → t0a = strVMX) (hvb : vb = true → t0b = strVMX) :
    reportOf (parseCommand va hw a) = reportOf (parseCommand vb hw b) := by
  have key : ∀ (s : Int) (e : List Event),
      (∃ buf, parseCommand va hw a = .ok ⟨s, e, buf⟩) →
      (∃ buf, parseCommand vb hw b = .ok ⟨s, e, buf⟩) →
      reportOf (parseCommand va hw a) = reportOf (parseCommand vb hw b) := by
    rintro s e ⟨ba, ha⟩ ⟨bb, hb⟩
    rw [ha, hb]
    rfl
  rcases rest with _ | ⟨op, args⟩
  · rw [parse_noOpcode va hw a t0a hta hva, parse_noOpcode vb hw b t0b htb hvb]
  · by_cases hs : args.length < operandCount op
    · rw [parse_short va hw a t0a op args hta hva hs, parse_short vb hw b t0b op args htb hvb hs]
    · by_cases c1 : op = strPINMODE
      · subst c1
        rcases args with _ | ⟨x, _ | ⟨y, r⟩⟩
        · exact absurd (by decide) hs
        · exact absurd (show [x].length < 2 by simp) hs
        · exact key _ _ (parse_pinMode va hw a t0a x y r hta hva)
            (parse_pinMode vb hw b t0b x y r htb hvb)
      by_cases c2 : op = strDIGITALWRITE
      · subst c2
        rcases args with _ | ⟨x, _ | ⟨y, r⟩⟩
        · exact absurd (by decide) hs
        · exact absurd (show [x].length < 2 by simp) hs
        · exact key _ _ (parse_digitalWrite va hw a t0a x y r hta hva)
            (parse_digitalWrite vb hw b t0b x y r htb hvb)
      by_cases c3 : op = strDIGITALREAD
      · subst c3
        rcases args with _ | ⟨x, r⟩
        · exact absurd (by decide) hs
        · exact key _ _ (parse_digitalRead va hw a t0a x r hta hva)
            (parse_digitalRead vb hw b t0b x r htb hvb)
      by_cases c4 : op = strANALOGWRITE
      · subst c4
        rcases args with _ | ⟨x, _ | ⟨y, r⟩⟩
        · exact absurd (by decide) hs
        · exact absurd (show [x].length < 2 by simp) hs
        · exact key _ _ (parse_analogWrite va hw a t0a x y r hta hva)
            (parse_analogWrite vb hw b t0b x y r htb hvb)
      by_cases c5 : op = strANALOGREAD
      · subst c5
        rcases args with _ | ⟨x, r⟩
        · exact absurd (by decide) hs
        · exact key _ _ (parse_analogRead va hw a t0a x r hta hva)
            (parse_analogRead vb hw b t0b x r htb hvb)
      exact key _ _ (parse_unknown va hw a t0a op args hta hva (by simp [c1, c2, c3, c4, c5]))
        (parse_unknown vb hw b t0b op args htb hvb (by simp [c1, c2, c3, c4, c5]))

/-- What `parseCommand` returns and does is fixed by the tokens of the line. -/
theorem parse_report_congr (v : Bool) (hw : Board) (a b : List Char)
    (h : tokens (cstr a) = tokens (cstr b)) :
    reportOf (parseCommand v hw a) = reportOf (parseCommand v hw b) := by
  rcases hta : tokens (cstr a) with _ | ⟨t0, more⟩
  · rw [parse_noToken v hw a hta, parse_noToken v hw b (h ▸ hta)]
  · have htb : tokens (cstr b) = t0 :: more := h ▸ hta
    by_cases hbad : v = true ∧ t0 ≠ strVMX
    · obtain ⟨hv, hne⟩ := hbad
      subst hv
      obtain ⟨ba, ha⟩ := parse_badMarker hw a t0 more hta hne
      obtain ⟨bb, hb⟩ := parse_badMarker hw b t0 more htb hne
      rw [ha, hb]
      rfl
    · have hv : v = true → t0 = strVMX := fun hv => by
        by_contra hne
        exact hbad ⟨hv, hne⟩
      exact parse_report_passed v v hw a b t0 t0 more hta htb hv hv

/-! ## Recursion equations for `tokens` -/

theorem tokens_nil : tokens [] = [] := rfl

/-- The tokens of a string follow from the first `strtok` call on it. -/
theorem tokens_of_strtok (s : List Char) :
    tokens s =
      match (strtok (some s) delims ⟨[], []⟩).1 with
      | none => []
      | some t => t :: tokens (strtok (some s) delims ⟨[], []⟩).2.rest := by
  obtain ⟨h1, h2⟩ := tokens_first s ⟨[], []⟩
  rcases ht : tokens s with _ | ⟨t, ts⟩
  · rw [ht] at h1
    simp only [List.head?_nil] at h1
    rw [h1]
  · rw [ht] at h1 h2
    simp only [List.head?_cons, List.tail_cons] at h1 h2
    rw [h1]
    simp only
    rw [h2]

/-- Leading spaces are skipped. -/
theorem tokens_space_cons (s : List Char) : tokens (' ' :: s) = tokens s := by
  rw [tokens_of_strtok (' ' :: s), tokens_of_strtok s]
  have e : (strtok (some (' ' :: s)) delims ⟨[], []⟩).1 = (strtok (some s) delims ⟨[], []⟩).1 ∧
      (strtok (some (' ' :: s)) delims ⟨[], []⟩).2.rest
        = (strtok (some s) delims ⟨[], []⟩).2.rest := by
    simp only [strtok, delims, List.mem_singleton, decide_True, List.dropWhile_cons_of_pos,
      List.takeWhile_cons_of_pos]
    split <;> [skip; split] <;> simp
  rw [e.1, e.2]

/-- A string that starts with a character other than a space: its first token runs up
to the next space, and the other tokens are those of what follows that space. -/
theorem tokens_char_cons (c : Char) (s : List Char) (hc : c ≠ ' ') :
    tokens (c :: s) = (c :: s.takeWhile (fun x => !decide (x ∈ delims))) ::
      tokens ((s.dropWhile (fun x => !decide (x ∈ delims))).drop 1) := by
  rw [tokens_of_strtok (c :: s)]
  have e : strtok (some (c :: s)) delims ⟨[], []⟩ =
      (some (c :: s.takeWhile (fun x => !decide (x ∈ delims))),
       (strtok (some (c :: s)) delims ⟨[], []⟩).2) ∧
      (strtok (some (c :: s)) delims ⟨[], []⟩).2.rest
        = (s.dropWhile (fun x => !decide (x ∈ delims))).drop 1 := by
    have e0 : List.dropWhile (fun x => decide (x ∈ delims)) (c :: s) = c :: s := by
      simp [List.dropWhile, delims, hc]
    have e1 : List.takeWhile (fun x => !decide (x ∈ delims)) (c :: s)
        = c :: s.takeWhile (fun x => !decide (x ∈ delims)) := by
      simp [List.takeWhile, delims, hc]
    have e2 : List.dropWhile (fun x => !decide (x ∈ delims)) (c :: s)
        = s.dropWhile (fun x => !decide (x ∈ delims)) := by
      simp [List.dropWhile, delims, hc]
    unfold strtok
    simp only [e0]
    simp only [e1, e2]
    split <;> rename_i hd <;> simp [hd]
  rw [e.1]
  simp only
  rw [e.2]

theorem takeWhile_append_stop {α : Type} (p : α → Bool) (l r : List α) (x : α)
    (hx : p x = false) : (l ++ x :: r).takeWhile p = l.takeWhile p := by
  induction l with
  | nil => simp [List.takeWhile, hx]
  | cons a l ih =>
    simp only [List.cons_append, List.takeWhile_cons]
    split
    · rw [ih]
    · rfl

theorem dropWhile_append_stop {α : Type} (p : α → Bool) (l r : List α) (x : α)
    (hx : p x = false) : (l ++ x :: r).dropWhile p = l.dropWhile p ++ x :: r := by
  induction l with
  | nil => simp [List.dropWhile, hx]
  | cons a l ih =>
    simp only [List.cons_append, List.dropWhile_cons]
    split
    · rw [ih]
    · rfl

/-- A space between two strings separates their tokens. -/
theorem tokens_append_space (a b : List Char) :
    tokens (a ++ ' ' :: b) = tokens a ++ tokens b := by
  generalize h : a.length = n
  induction n using Nat.strong_induction_on generalizing a with
  | _ n ih =>
    cases a with
    | nil => simp [tokens_space_cons, tokens_nil]
    | cons c a1 =>
      by_cases hc : c = ' '
      · subst hc
        simp only [List.cons_append, tokens_space_cons]
        exact ih a1.length (by simp at h; omega) a1 rfl
      · have hsp : (fun x => !decide (x ∈ delims)) ' ' = false := by simp [delims]
        rw [List.cons_append, tokens_char_cons c _ hc, tokens_char_cons c a1 hc,
          takeWhile_append_stop _ a1 b ' ' hsp, dropWhile_append_stop _ a1 b ' ' hsp]
        rcases hd : a1.dropWhile (fun x => !decide (x ∈ delims)) with _ | ⟨d, r1⟩
        · simp [tokens_nil]
        · have hlen : r1.length < n := by
            have := (List.dropWhile_suffix (l := a1) (fun x => !decide (x ∈ delims))).length_le
            rw [hd] at this
            simp at this h
            omega
          simp only [List.cons_append, List.drop_succ_cons, List.drop_zero]
          rw [ih r1.length hlen r1 rfl]

theorem tokens_spaces_append (n : Nat) (s : List Char) :
    tokens (List.replicate n ' ' ++ s) = tokens s := by
  induction n with
  | zero => simp
  | succ n ih => simp [List.replicate_succ, tokens_space_cons, ih]

/-! ## The accumulator between newlines -/

/-- The pass of `loop` that stores a byte other than a newline at index `pre.length`,
with room left for the terminator behind it. -/
theorem loop_store (v : Bool) (hw : Board) (pre post : List Char) (x y c : Char)
    (hc : c ≠ '\n') (hlen : pre.length + 1 < MAX_COMMAND_SIZE) :
    loop v hw ⟨pre ++ x :: y :: post, (pre.length : Int)⟩ (some c) =
      .ok (⟨(pre ++ [c]) ++ NUL :: post, ((pre ++ [c]).length : Int)⟩, []) := by
  have h1 : store (pre ++ x :: y :: post) (pre.length : Int) c = .ok (pre ++ c :: y :: post) := by
    unfold store
    rw [if_pos ⟨by omega, by omega⟩]
    simp
  have h2 : store (pre ++ c :: y :: post) ((pre.length : Int) + 1) NUL
      = .ok (pre ++ c :: NUL :: post) := by
    unfold store
    rw [if_pos ⟨by omega, by omega⟩]
    have e : ((pre.length : Int) + 1).toNat = pre.length + 1 := by omega
    rw [e]
    have e2 : pre ++ c :: y :: post = (pre ++ [c]) ++ y :: post := by simp
    have e3 : pre.length + 1 = (pre ++ [c]).length := by simp
    rw [e2, e3]
    simp
  simp [loop, hc, h1, h2, bind, Except.bind, pure, Except.pure]

/-- Bytes other than newlines, received while they fit, are stored one after another
with the terminator behind them, and nothing else happens. -/
theorem run_segment (v : Bool) (hw : Board) (seg : List Char) :
    ∀ (pre post : List Char) (x : Char), (∀ c ∈ seg, c ≠ '\n') →
      (pre ++ x :: post).length = MAX_COMMAND_SIZE →
      pre.length + seg.length < MAX_COMMAND_SIZE →
      run v hw ⟨pre ++ x :: post, (pre.length : Int)⟩ seg =
        .ok (⟨(pre ++ seg) ++ (if seg = [] then x else NUL) :: post.drop seg.length,
              ((pre ++ seg).length : Int)⟩, []) := by
  induction seg with
  | nil => intro pre post x _ _ _; simp [run, pure, Except.pure]
  | cons c cs ih =>
    intro pre post x hnl hlen hfit
    have hc : c ≠ '\n' := hnl c (by simp)
    simp only [List.length_append, List.length_cons] at hlen hfit
    rcases post with _ | ⟨y, post1⟩
    · simp only [List.length_nil] at hlen
      omega
    · have hstep := loop_store v hw pre post1 x y c hc (by omega)
      have hrest := ih (pre ++ [c]) post1 NUL (fun d hd => hnl d (List.mem_cons_of_mem _ hd))
        (by simp only [List.length_append, List.length_cons, List.length_nil] at hlen ⊢; omega)
        (by simp only [List.length_append, List.length_cons, List.length_nil]; omega)
      simp only [run, hstep, hrest, bind, Except.bind, pure, Except.pure]
      have e : (if cs = [] then NUL else NUL) = NUL := by split <;> rfl
      simp [e]

/-! ## The accumulator against line-by-line dispatch -/

/-- The string stored in front of a terminator is read back whatever lies behind. -/
theorem cstr_append_NUL (a b : List Char) : cstr (a ++ NUL :: b) = cstr a := by
  unfold cstr
  exact takeWhile_append_stop _ a b NUL (by simp)

/-- The ten digit characters: each is a digit with its own value, and none is white
space, a sign, a space or the terminator. -/
theorem digitChar_facts : ∀ m, m < 10 →
    isdigit (Nat.digitChar m) = true ∧ (Nat.digitChar m).toNat - 48 = m ∧
    isspace (Nat.digitChar m) = false ∧ Nat.digitChar m ≠ '-' ∧ Nat.digitChar m ≠ '+' ∧
    Nat.digitChar m ≠ ' ' ∧ Nat.digitChar m ≠ NUL := by
  decide

theorem isdigit_facts (c : Char) (h : isdigit c = true) :
    isspace c = false ∧ c ≠ '-' ∧ c ≠ '+' ∧ c ≠ ' ' ∧ c ≠ NUL := by
  simp only [isdigit, Bool.and_eq_true, decide_eq_true_eq] at h
  refine ⟨?_, ?_, ?_, ?_, ?_⟩
  · simp only [isspace, Bool.or_eq_false_iff, decide_eq_false_iff_not, Bool.and_eq_false_imp,
      decide_eq_true_eq]
    constructor <;> omega
  · rintro rfl; revert h; decide
  · rintro rfl; revert h; decide
  · rintro rfl; revert h; decide
  · rintro rfl; revert h; decide

/-- Reading the numeral that `Nat.toDigits` builds in front of `ds` gives the number,
and reading goes on into `ds` with that value. -/
theorem digitsValue_toDigitsCore (fuel : Nat) :
    ∀ (n : Nat) (ds : List Char), n < fuel →
      digitsValue (Nat.toDigitsCore 10 fuel n ds) 0 = digitsValue ds n := by
  induction fuel with
  | zero => intro n ds h; omega
  | succ fuel ih =>
    intro n ds h
    have hd := digitChar_facts (n % 10) (Nat.mod_lt _ (by decide))
    simp only [Nat.toDigitsCore]
    split
    · rename_i h0
      have hn : n % 10 = n := by omega
      simp only [digitsValue, hd.1, if_true, hd.2.1]
      rw [hn]
      simp
    · rename_i h0
      rw [ih (n / 10) _ (by omega)]
      simp only [digitsValue, hd.1, if_true, hd.2.1]
      congr 1
      omega

theorem toDigitsCore_mem (fuel : Nat) :
    ∀ (n : Nat) (ds : List Char), ∀ c ∈ Nat.toDigitsCore 10 fuel n ds,
      isdigit c = true ∨ c ∈ ds := by
  induction fuel with
  | zero => intro n ds c hc; right; simpa [Nat.toDigitsCore] using hc
  | succ fuel ih =>
    intro n ds c hc
    have hd := digitChar_facts (n % 10) (Nat.mod_lt _ (by decide))
    simp only [Nat.toDigitsCore] at hc
    split at hc
    · simp only [List.mem_cons] at hc
      rcases hc with rfl | hc
      · exact Or.inl hd.1
      · exact Or.inr hc
    · rcases ih _ _ c hc with h | h
      · exact Or.inl h
      · simp only [List.mem_cons] at h
        rcases h with rfl | h
        · exact Or.inl hd.1
        · exact Or.inr h

theorem toDigitsCore_ne_nil (fuel n : Nat) (ds : List Char) (h : ds ≠ [] ∨ 0 < fuel) :
    Nat.toDigitsCore 10 fuel n ds ≠ [] := by
  induction fuel generalizing n ds with
  | zero =>
    rcases h with h | h
    · simpa [Nat.toDigitsCore] using h
    · omega
  | succ fuel ih =>
    simp only [Nat.toDigitsCore]
    split
    · simp
    · exact ih _ _ (Or.inl (by simp))

/-- A decimal numeral is a non-empty string of digits whose value is the number. -/
theorem numeral_facts (n : Nat) :
    numeral n ≠ [] ∧ (∀ c ∈ numeral n, isdigit c = true) ∧ digitsValue (numeral n) 0 = n := by
  refine ⟨toDigitsCore_ne_nil _ _ _ (Or.inr (by omega)), ?_, ?_⟩
  · intro c hc
    rcases toDigitsCore_mem _ _ _ c hc with h | h
    · exact h
    · simp at h
  · have := digitsValue_toDigitsCore (n + 1) n [] (by omega)
    simpa [numeral, Nat.toDigits, digitsValue] using this

/-- Truncation to `int` leaves a non-negative value below `2 ^ (bits - 1)` as it is. -/
theorem wrapInt_of_fits (bits : Nat) (n : Int) (hb : 0 < bits) (h0 : 0 ≤ n)
    (h1 : n < 2 ^ (bits - 1)) : wrapInt bits n = n := by
  unfold wrapInt
  have e : (2 : Int) ^ bits = 2 ^ (bits - 1) * 2 := by
    rw [← pow_succ]
    congr 1
    omega
  have hpos : (0 : Int) < 2 ^ (bits - 1) := by positivity
  rw [Int.emod_eq_of_lt (by omega) (by rw [e]; omega)]
  omega

/-- On a string that starts with a digit `atoi` reads the digits from the start. -/
theorem atoi_digit_cons (bits : Nat) (c : Char) (cs : List Char) (hc : isdigit c = true) :
    atoi bits (c :: cs) = wrapInt bits (digitsValue (c :: cs) 0 : Int) := by
  obtain ⟨h1, h2, h3, -, -⟩ := isdigit_facts c hc
  unfold atoi
  have e : List.dropWhile isspace (c :: cs) = c :: cs := by
    simp [List.dropWhile, h1]
  rw [e]
  split
  · rename_i heq
    simp only [List.cons.injEq] at heq
    exact absurd heq.1 h2
  · rename_i heq
    simp only [List.cons.injEq] at heq
    exact absurd heq.1 h3
  · rfl

/-- On a decimal numeral of a number that fits in `int`, `atoi` gives the number. -/
theorem atoi_numeral (bits n : Nat) (hb : 0 < bits) (h : (n : Int) < 2 ^ (bits - 1)) :
    atoi bits (numeral n) = n := by
  obtain ⟨hne, hdig, hval⟩ := numeral_facts n
  obtain ⟨c, cs, hcs⟩ := List.exists_cons_of_ne_nil hne
  rw [hcs] at hdig hval ⊢
  rw [atoi_digit_cons bits c cs (hdig c (by simp)), hval]
  exact wrapInt_of_fits bits n hb (by omega) h

theorem digitsValue_no_digit (ds : List Char) (acc : Nat)
    (h : ds.takeWhile isdigit = []) : digitsValue ds acc = acc := by
  cases ds with
  | nil => rfl
  | cons c cs =>
    simp only [List.takeWhile_cons] at h
    split at h
    · simp at h
    · rename_i hc
      simp [digitsValue, hc]

/-- A string in which `atoi` finds no digit converts to 0. -/
theorem atoi_no_digits (bits : Nat) (s : List Char) (hb : 0 < bits)
    (h : numberDigits s = []) : atoi bits s = 0 := by
  have hz : wrapInt bits 0 = 0 := wrapInt_of_fits bits 0 hb (by omega) (by positivity)
  unfold numberDigits at h
  unfold atoi
  generalize List.dropWhile isspace s = t at h
  split at h
  · simp [digitsValue_no_digit _ 0 h, hz]
  · simp [digitsValue_no_digit _ 0 h, hz]
  · simp [digitsValue_no_digit _ 0 h, hz]

/-! ## Streams, numbers, surplus tokens -/

theorem cstr_append_of_no_NUL (a b : List Char) (h : NUL ∉ a) : cstr (a ++ b) = a ++ cstr b := by
  unfold cstr
  rw [List.takeWhile_append_of_pos]
  intro x hx
  simp only [ne_eq, decide_not, Bool.not_eq_true', decide_eq_false_iff_not]
  rintro rfl
  exact h hx

theorem cstr_append_of_NUL (a b : List Char) (h : NUL ∈ a) : cstr (a ++ b) = cstr a := by
  obtain ⟨s, t, rfl⟩ := List.append_of_mem h
  rw [List.append_assoc, List.cons_append, cstr_append_NUL, cstr_append_NUL]

/-- Tokens behind the ones a recognised opcode reads change nothing. -/
theorem parse_report_extra (v : Bool) (hw : Board) (a b t0 op : List Char)
    (args extra : List (List Char))
    (hta : tokens (cstr a) = t0 :: op :: args)
    (htb : tokens (cstr b) = t0 :: op :: (args ++ extra))
    (hv : v = true → t0 = strVMX)
    (hargs : operandCount op ≤ args.length) :
    reportOf (parseCommand v hw a) = reportOf (parseCommand v hw b) ∧
    ∃ o, parseCommand v hw a = .ok o := by
  have key : ∀ (s : Int) (e : List Event),
      (∃ buf, parseCommand v hw a = .ok ⟨s, e, buf⟩) →
      (∃ buf, parseCommand v hw b = .ok ⟨s, e, buf⟩) →
      reportOf (parseCommand v hw a) = reportOf (parseCommand v hw b) ∧
      ∃ o, parseCommand v hw a = .ok o := by
    rintro s e ⟨ba, ha⟩ ⟨bb, hb⟩
    rw [ha, hb]
    exact ⟨rfl, _, rfl⟩
  by_cases c1 : op = strPINMODE
  · subst c1
    rcases args with _ | ⟨x, _ | ⟨y, r⟩⟩
    · exact absurd hargs (by decide)
    · exact absurd hargs (by simp [operandCount])
    · exact key _ _ (parse_pinMode v hw a t0 x y r hta hv)
        (parse_pinMode v hw b t0 x y (r ++ extra) htb hv)
  by_cases c2 : op = strDIGITALWRITE
  · subst c2
    rcases args with _ | ⟨x, _ | ⟨y, r⟩⟩
    · exact absurd hargs (by decide)
    · exact absurd hargs (by simp [operandCount, strDIGITALWRITE, strPINMODE])
    · exact key _ _ (parse_digitalWrite v hw a t0 x y r hta hv)
        (parse_digitalWrite v hw b t0 x y (r ++ extra) htb hv)
  by_cases c3 : op = strDIGITALREAD
  · subst c3
    rcases args with _ | ⟨x, r⟩
    · exact absurd hargs (by decide)
    · exact key _ _ (parse_digitalRead v hw a t0 x r hta hv)
        (parse_digitalRead v hw b t0 x (r ++ extra) htb hv)
  by_cases c4 : op = strANALOGWRITE
  · subst c4
    rcases args with _ | ⟨x, _ | ⟨y, r⟩⟩
    · exact absurd hargs (by decide)
    · exact absurd hargs (by simp [operandCount, strANALOGWRITE, strDIGITALREAD,
        strDIGITALWRITE, strPINMODE])
    · exact key _ _ (parse_analogWrite v hw a t0 x y r hta hv)
        (parse_analogWrite v hw b t0 x y (r ++ extra) htb hv)
  by_cases c5 : op = strANALOGREAD
  · subst c5
    rcases args with _ | ⟨x, r⟩
    · exact absurd hargs (by decide)
    · exact key _ _ (parse_analogRead v hw a t0 x r hta hv)
        (parse_analogRead v hw b t0 x (r ++ extra) htb hv)
  exact key _ _ (parse_unknown v hw a t0 op args hta hv (by simp [c1, c2, c3, c4, c5]))
    (parse_unknown v hw b t0 op (args ++ extra) htb hv (by simp [c1, c2, c3, c4, c5]))

/-- A run that returns has, as its trace, the events it returns and no fault; a run that
ends in a fault has that fault in its trace. -/
theorem runTrace_of_run (v : Bool) (hw : Board) (s : List Char) :
    ∀ g : Globals,
      (∀ g1 e, run v hw g s = .ok (g1, e) → runTrace v hw g s = (e, none)) ∧
      (∀ f, run v hw g s = .error f → (runTrace v hw g s).2 = some f) := by
  induction s with
  | nil =>
    intro g
    constructor
    · intro g1 e h
      simp only [run, pure, Except.pure, Except.ok.injEq, Prod.mk.injEq] at h
      simp [runTrace, h.2]
    · intro f h
      simp [run, pure, Except.pure] at h
  | cons c cs ih =>
    intro g
    rcases hl : loop v hw g (some c) with f0 | ⟨g0, e0⟩
    · constructor
      · intro g1 e h
        simp [run, hl, bind, Except.bind] at h
      · intro f h
        simp only [run, hl, bind, Except.bind, Except.error.injEq] at h
        simp [runTrace, hl, h]
    · obtain ⟨ih1, ih2⟩ := ih g0
      rcases hr : run v hw g0 cs with f1 | ⟨g2, e2⟩
      · constructor
        · intro g1 e h
          simp [run, hl, hr, bind, Except.bind] at h
        · intro f h
          simp only [run, hl, hr, bind, Except.bind, Except.error.injEq] at h
          simp only [runTrace, hl]
          rw [← h]
          exact ih2 f1 hr
      · constructor
        · intro g1 e h
          simp only [run, hl, hr, bind, Except.bind, pure, Except.pure, Except.ok.injEq,
            Prod.mk.injEq] at h
          simp only [runTrace, hl, ih1 g2 e2 hr]
          rw [← h.2]
        · intro f h
          simp [run, hl, hr, bind, Except.bind, pure, Except.pure] at h

/-- C12: for all natural numbers `p` and `v` that fit in the `int` of the board, the
line `VMX ANALOGWRITE p v` with `p` and `v` as decimal numerals makes `parseCommand`
return 0 with `analogWrite(p, v)` as its only event. -/
theorem C12_analogWrite_passes_both_numbers (hw : Board) (p v : Nat)
    (hbits : 0 < hw.intBits)
    (hp : (p : Int) < 2 ^ (hw.intBits - 1)) (hv : (v : Int) < 2 ^ (hw.intBits - 1)) :
    ∃ o, parseCommand VMX_ONLY hw
        (strVMX ++ ' ' :: (strANALOGWRITE ++ ' ' :: (numeral p ++ ' ' :: numeral v))) = .ok o ∧
      o.status = 0 ∧ o.effects = [Event.analogWrite p v] ∧
      hardwareCalls o.effects = [Event.analogWrite p v] := by
  have hword : ∀ n : Nat, numeral n ≠ [] ∧ (∀ c ∈ numeral n, c ≠ ' ') ∧ NUL ∉ numeral n := by
    intro n
    obtain ⟨h1, h2, -⟩ := numeral_facts n
    exact ⟨h1, fun c hc => (isdigit_facts c (h2 c hc)).2.2.2.1,
      fun hc => (isdigit_facts NUL (h2 NUL hc)).2.2.2.2 rfl⟩
  have htok := tokens_cstr_fields [strVMX, strANALOGWRITE, numeral p, numeral v] (by
    intro w hw
    simp only [List.mem_cons, List.mem_singleton, List.not_mem_nil, or_false] at hw
    rcases hw with rfl | rfl | rfl | rfl
    · decide
    · decide
    · exact hword p
    · exact hword v)
  have hline : [' '].intercalate [strVMX, strANALOGWRITE, numeral p, numeral v] =
      strVMX ++ ' ' :: (strANALOGWRITE ++ ' ' :: (numeral p ++ ' ' :: numeral v)) := by
    simp [List.intercalate, List.intersperse]
  rw [hline] at htok
  obtain ⟨buf, hb⟩ := parse_analogWrite VMX_ONLY hw _ strVMX (numeral p) (numeral v) [] htok
    (fun _ => rfl)
  rw [atoi_numeral _ p hbits hp, atoi_numeral _ v hbits hv] at hb
  exact ⟨_, hb, rfl, rfl, rfl⟩

/-- C12 (witness): pin 9 and value 128 on the board with 16-bit `int`. -/
theorem C12_analogWrite_witness :
    ∃ o, parseCommand VMX_ONLY demoBoard
        (strVMX ++ ' ' :: (strANALOGWRITE ++ ' ' :: (numeral 9 ++ ' ' :: numeral 128))) = .ok o ∧
      o.status = 0 ∧ o.effects = [Event.analogWrite (9 : Nat) (128 : Nat)] ∧
      hardwareCalls o.effects = [Event.analogWrite (9 : Nat) (128 : Nat)] :=
  C12_analogWrite_passes_both_numbers demoBoard 9 128 (by decide) (by decide) (by decide)

/-! ## Malformed numbers, trailing tokens, the unchecked marker -/

/-- C13 (counterexample): on `VMX DIGITALREAD` the pin token is missing and
`parseCommand` makes no call with pin 0: `atoi` receives the null pointer; on
`VMX DIGITALREAD 7x` the pin token `7x` is the decimal numeral of no number, yet it
is converted to 7, not to 0. -/
theorem C13_missing_faults_and_7x_reads_7 :
    tokens (cstr lineReadNoPin) = [strVMX, strDIGITALREAD] ∧
    parseCommand VMX_ONLY demoBoard lineReadNoPin = .error Fault.nullPointer ∧
    tokens (cstr lineReadSevenX) = [strVMX, strDIGITALREAD, ['7', 'x']] ∧
    (∀ n : Nat, numeral n ≠ ['7', 'x']) ∧
    reportOf (parseCommand VMX_ONLY demoBoard lineReadSevenX) =
      .ok (-1, [Event.digitalRead 7, Event.println (demoBoard.digitalRead 7)]) ∧
    reportOf (parseCommand VMX_ONLY demoBoard lineReadSevenX) ≠
      .ok (-1, [Event.digitalRead 0, Event.println (demoBoard.digitalRead 0)]) := by
  have h : reportOf (parseCommand VMX_ONLY demoBoard lineReadSevenX) =
      .ok (-1, [Event.digitalRead 7, Event.println (demoBoard.digitalRead 7)]) := by rfl
  refine ⟨by rfl, by rfl, by rfl, ?_, h, ?_⟩
  · intro n hn
    have := (numeral_facts n).2.1 'x' (by rw [hn]; simp)
    revert this
    decide
  · rw [h]
    intro hc
    injection hc with hc
    revert hc
    decide

/-- C13 (amended): for every recognised opcode whose argument tokens are all present,
a pin token in which `atoi` finds no digit (after white space and an optional sign)
is converted to 0 and no error is signalled: `parseCommand` returns the success
status of the opcode (0, or -1 for the two reads) and its one hardware call has 0 as
pin; the same holds for the value token of ANALOGWRITE. -/
theorem C13_digitless_token_converts_to_0 (hw : Board) (line op pin : List Char)
    (rest : List (List Char)) (hbits : 0 < hw.intBits)
    (htok : tokens (cstr line) = strVMX :: op :: pin :: rest)
    (hop : op ∈ [strPINMODE, strDIGITALWRITE, strDIGITALREAD, strANALOGWRITE, strANALOGREAD])
    (hall : operandCount op ≤ (pin :: rest).length) :
    ∃ o call, parseCommand VMX_ONLY hw line = .ok o ∧
      o.status = (if op = strDIGITALREAD ∨ op = strANALOGREAD then -1 else 0) ∧
      hardwareCalls o.effects = [call] ∧
      (numberDigits pin = [] → call.pinArg = some 0) ∧
      (op = strANALOGWRITE → ∀ value, rest.head? = some value → numberDigits value = [] →
        call = Event.analogWrite (atoi hw.intBits pin) 0) := by
  simp only [List.mem_cons, List.mem_singleton, List.not_mem_nil, or_false] at hop
  rcases hop with rfl | rfl | rfl | rfl | rfl
  · rcases rest with _ | ⟨y, r⟩
    · exact absurd hall (by simp [operandCount])
    · obtain ⟨buf, hb⟩ := parse_pinMode VMX_ONLY hw line strVMX pin y r htok (fun _ => rfl)
      refine ⟨_, _, hb, (by show ((0 : Int) = _); decide), rfl, ?_, ?_⟩
      · intro h
        simp [Event.pinArg, atoi_no_digits _ pin hbits h]
      · intro h; exact absurd h (by decide)
  · rcases rest with _ | ⟨y, r⟩
    · exact absurd hall (by simp [operandCount, strDIGITALWRITE, strPINMODE])
    · obtain ⟨buf, hb⟩ := parse_digitalWrite VMX_ONLY hw line strVMX pin y r htok
        (fun _ => rfl)
      refine ⟨_, _, hb, (by show ((0 : Int) = _); decide), rfl, ?_, ?_⟩
      · intro h
        simp [Event.pinArg, atoi_no_digits _ pin hbits h]
      · intro h; exact absurd h (by decide)
  · obtain ⟨buf, hb⟩ := parse_digitalRead VMX_ONLY hw line strVMX pin rest htok (fun _ => rfl)
    refine ⟨_, _, hb, (by show ((-1 : Int) = _); decide), rfl, ?_, ?_⟩
    · intro h
      simp [Event.pinArg, atoi_no_digits _ pin hbits h]
    · intro h; exact absurd h (by decide)
  · rcases rest with _ | ⟨y, r⟩
    · exact absurd hall (by simp [operandCount, strANALOGWRITE, strDIGITALREAD,
        strDIGITALWRITE, strPINMODE])
    · obtain ⟨buf, hb⟩ := parse_analogWrite VMX_ONLY hw line strVMX pin y r htok
        (fun _ => rfl)
      refine ⟨_, _, hb, (by show ((0 : Int) = _); decide), rfl, ?_, ?_⟩
      · intro h
        simp [Event.pinArg, atoi_no_digits _ pin hbits h]
      · intro _ value hval h
        simp only [List.head?_cons, Option.some.injEq] at hval
        subst hval
        rw [atoi_no_digits _ y hbits h]
  · obtain ⟨buf, hb⟩ := parse_analogRead VMX_ONLY hw line strVMX pin rest htok (fun _ => rfl)
    refine ⟨_, _, hb, (by show ((-1 : Int) = _); decide), rfl, ?_, ?_⟩
    · intro h
      simp [Event.pinArg, atoi_no_digits _ pin hbits h]
    · intro h; exact absurd h (by decide)

/-- C13 (witness): the line `VMX DIGITALREAD x7`. -/
theorem C13_digitless_witness :
    ∃ o call, parseCommand VMX_ONLY demoBoard lineReadXSeven = .ok o ∧
      o.status = (if strDIGITALREAD = strDIGITALREAD ∨ strDIGITALREAD = strANALOGREAD
        then -1 else 0) ∧
      hardwareCalls o.effects = [call] ∧
      (numberDigits ['x', '7'] = [] → call.pinArg = some 0) ∧
      (strDIGITALREAD = strANALOGWRITE → ∀ value, ([] : List (List Char)).head? = some value →
        numberDigits value = [] →
        call = Event.analogWrite (atoi demoBoard.intBits ['x', '7']) 0) :=
  C13_digitless_token_converts_to_0 demoBoard lineReadXSeven strDIGITALREAD ['x', '7'] []
    (by decide) (by rfl) (by decide) (by decide)

/-- C14: for every line (a C string) that passes the marker check and carries an
opcode token with all the argument tokens that opcode reads (two or one for the five
recognised opcodes), appending a space and any further text changes neither the status
nor the events of `parseCommand` (hardware call and serial output), which returns on
the line. -/
theorem C14_trailing_tokens_ignored (vmxOnly : Bool) (hw : Board)
    (line more t0 op : List Char) (args : List (List Char))
    (hnul : NUL ∉ line)
    (htok : tokens (cstr line) = t0 :: op :: args)
    (hpass : vmxOnly = true → t0 = strVMX)
    (hargs : operandCount op ≤ args.length) :
    reportOf (parseCommand vmxOnly hw (line ++ ' ' :: more)) =
      reportOf (parseCommand vmxOnly hw line) ∧
    ∃ o, parseCommand vmxOnly hw line = .ok o := by
  have h2 : tokens (cstr (line ++ ' ' :: more)) = t0 :: op :: (args ++ tokens (cstr more)) := by
    have e : cstr (' ' :: more) = ' ' :: cstr more := by
      simp [cstr, List.takeWhile, NUL]
    rw [cstr_append_of_no_NUL line _ hnul, e, tokens_append_space,
      ← cstr_of_no_NUL line hnul, htok]
    rfl
  obtain ⟨h3, h4⟩ := parse_report_extra vmxOnly hw line (line ++ ' ' :: more) t0 op args
    (tokens (cstr more)) htok h2 hpass hargs
  exact ⟨h3.symm, h4⟩

/-- C14 (witness): `VMX PINMODE 13 OUTPUT` followed by ` and more`. -/
theorem C14_trailing_tokens_witness :
    reportOf (parseCommand VMX_ONLY demoBoard
        (linePinModeOutput ++ ' ' :: ['a', 'n', 'd', ' ', 'm', 'o', 'r', 'e'])) =
      reportOf (parseCommand VMX_ONLY demoBoard linePinModeOutput) ∧
    ∃ o, parseCommand VMX_ONLY demoBoard linePinModeOutput = .ok o :=
  C14_trailing_tokens_ignored VMX_ONLY demoBoard linePinModeOutput
    ['a', 'n', 'd', ' ', 'm', 'o', 'r', 'e'] strVMX strPINMODE [['1', '3'], strOUTPUT]
    (by decide) (by rfl) (fun _ => rfl) (by decide)

/-- C15 (counterexample): with the marker check off, the line `PINMODE 13 OUTPUT` is not
dispatched as PINMODE: its first token is consumed as the marker, `13` is taken as
the opcode, and `parseCommand` returns 5 with no hardware call. -/
theorem C15_line_without_marker_returns_5 :
    reportOf (parseCommand false demoBoard lineNoMarker) = .ok (5, []) ∧
    reportOf (parseCommand false demoBoard lineNoMarker) ≠
      .ok (0, [Event.pinMode 13 OUTPUT]) := by
  have h : reportOf (parseCommand false demoBoard lineNoMarker) = .ok (5, []) := by rfl
  refine ⟨h, ?_⟩
  rw [h]
  intro hc
  injection hc with hc
  revert hc
  decide

/-- C15 (amended): with the marker check off, the first token is consumed without
being compared: a line whose first token is any value gives exactly the status and
events that the shipped configuration gives on the line with `VMX` in its place, so
any first token followed by a valid command is accepted. -/
theorem C15_unchecked_marker_is_still_consumed (hw : Board) (a b t0 : List Char)
    (rest : List (List Char))
    (hta : tokens (cstr a) = t0 :: rest) (htb : tokens (cstr b) = strVMX :: rest) :
    reportOf (parseCommand false hw a) = reportOf (parseCommand VMX_ONLY hw b) :=
  parse_report_passed false VMX_ONLY hw a b t0 strVMX rest hta htb
    (fun h => absurd h (by decide)) (fun _ => rfl)

/-- C15 (witness): `FOO PINMODE 13 OUTPUT` with the check off against
`VMX PINMODE 13 OUTPUT` with the check on. -/
theorem C15_unchecked_marker_witness :
    reportOf (parseCommand false demoBoard lineFoo) =
      reportOf (parseCommand VMX_ONLY demoBoard linePinModeOutput) :=
  C15_unchecked_marker_is_still_consumed demoBoard lineFoo linePinModeOutput ['F', 'O', 'O']
    [strPINMODE, ['1', '3'], strOUTPUT] (by rfl) (by rfl)

/-! ## Delimiters, accumulation, totality -/

/-- C16 (counterexample): with tabs in place of the spaces, `VMX PINMODE 13 OUTPUT` is
one single token and `parseCommand` returns 2 with no hardware call; with a carriage
return left at its end, the mode token is `OUTPUT\r` and the pin is set to
INPUT_PULLUP; the space-separated line gives status 0 and `pinMode(13, OUTPUT)`. -/
theorem C16_tab_and_carriage_return_change_the_tokens :
    reportOf (parseCommand VMX_ONLY demoBoard linePinModeOutput) =
      .ok (0, [Event.pinMode 13 OUTPUT]) ∧
    tokens (cstr lineTabs) = [lineTabs] ∧
    reportOf (parseCommand VMX_ONLY demoBoard lineTabs) = .ok (2, []) ∧
    tokens (cstr lineCarriageReturn) =
      [strVMX, strPINMODE, ['1', '3'], strOUTPUT ++ ['\r']] ∧
    reportOf (parseCommand VMX_ONLY demoBoard lineCarriageReturn) =
      .ok (0, [Event.pinMode 13 INPUT_PULLUP]) ∧
    reportOf (parseCommand VMX_ONLY demoBoard lineTabs) ≠
      reportOf (parseCommand VMX_ONLY demoBoard linePinModeOutput) ∧
    reportOf (parseCommand VMX_ONLY demoBoard lineCarriageReturn) ≠
      reportOf (parseCommand VMX_ONLY demoBoard linePinModeOutput) := by
  have h0 : reportOf (parseCommand VMX_ONLY demoBoard linePinModeOutput) =
      .ok (0, [Event.pinMode 13 OUTPUT]) := by rfl
  have h1 : reportOf (parseCommand VMX_ONLY demoBoard lineTabs) = .ok (2, []) := by rfl
  have h2 : reportOf (parseCommand VMX_ONLY demoBoard lineCarriageReturn) =
      .ok (0, [Event.pinMode 13 INPUT_PULLUP]) := by rfl
  refine ⟨h0, by rfl, h1, by rfl, h2, ?_, ?_⟩
  · rw [h0, h1]
    intro hc
    injection hc with hc
    revert hc
    decide
  · rw [h0, h2]
    intro hc
    injection hc with hc
    revert hc
    decide

/-- C16 (amended): `parseCommand` splits the line at the space character only; any
other character, white space such as a tab or a carriage return included, is part of
a token.  A non-empty C string `w` without a space is one token, so unless it is
`VMX` itself `parseCommand` returns 2 on it with no event; and a character other than
a space left behind the last field `w` of a line stays in the token of that field. -/
theorem C16_only_the_space_delimits (hw : Board) (w : List Char)
    (hne : w ≠ []) (hsp : ∀ c ∈ w, c ≠ ' ') (hnul : NUL ∉ w) :
    tokens (cstr w) = [w] ∧
    (w ≠ strVMX → ∃ o, parseCommand VMX_ONLY hw w = .ok o ∧ o.status = 2 ∧ o.effects = []) ∧
    (∀ (body : List Char) (c : Char), NUL ∉ body → c ≠ ' ' → c ≠ NUL →
      tokens (cstr (body ++ ' ' :: w)) = tokens (cstr body) ++ [w] ∧
      tokens (cstr (body ++ ' ' :: (w ++ [c]))) = tokens (cstr body) ++ [w ++ [c]]) := by
  have h1 : tokens (cstr w) = [w] := by
    rw [cstr_of_no_NUL w hnul]
    exact tokens_last_word w hne hsp
  refine ⟨h1, ?_, ?_⟩
  · intro hv
    obtain ⟨buf, hb⟩ := parse_badMarker hw w w [] h1 hv
    exact ⟨_, hb, rfl, rfl⟩
  · intro body c hbody hc1 hc2
    have hwc : NUL ∉ w ++ [c] := by
      simp only [List.mem_append, List.mem_singleton, not_or]
      exact ⟨hnul, fun h => hc2 h.symm⟩
    have e1 : cstr (body ++ ' ' :: w) = body ++ ' ' :: w := by
      apply cstr_of_no_NUL
      simp only [List.mem_append, List.mem_cons, not_or]
      exact ⟨hbody, by decide, hnul⟩
    have e2 : cstr (body ++ ' ' :: (w ++ [c])) = body ++ ' ' :: (w ++ [c]) := by
      apply cstr_of_no_NUL
      simp only [List.mem_append, List.mem_cons, not_or]
      exact ⟨hbody, by decide, by simpa using hwc⟩
    rw [e1, e2, tokens_append_space, tokens_append_space, cstr_of_no_NUL body hbody,
      tokens_last_word w hne hsp,
      tokens_last_word (w ++ [c]) (by simp) (by
        intro x hx
        simp only [List.mem_append, List.mem_singleton] at hx
        rcases hx with hx | rfl
        · exact hsp x hx
        · exact hc1)]
    exact ⟨rfl, rfl⟩

/-- C16 (witness): the tab-separated line as `w`. -/
theorem C16_only_the_space_witness :
    tokens (cstr lineTabs) = [lineTabs] ∧
    (lineTabs ≠ strVMX →
      ∃ o, parseCommand VMX_ONLY demoBoard lineTabs = .ok o ∧ o.status = 2 ∧ o.effects = []) ∧
    (∀ (body : List Char) (c : Char), NUL ∉ body → c ≠ ' ' → c ≠ NUL →
      tokens (cstr (body ++ ' ' :: lineTabs)) = tokens (cstr body) ++ [lineTabs] ∧
      tokens (cstr (body ++ ' ' :: (lineTabs ++ [c]))) =
        tokens (cstr body) ++ [lineTabs ++ [c]]) :=
  C16_only_the_space_delimits demoBoard lineTabs (by decide) (by decide) (by decide)

/-- C17: from a reset state (`cmdIndex = 0`, the terminator in `command[0]`, an array
of MAX_COMMAND_SIZE characters), feeding at most 49 bytes none of which is a newline
or the terminator: after each of them the array starts with the bytes consumed so far
followed by the terminator (so the string it holds is those bytes), `cmdIndex` is
their number, and no event has occurred. -/
theorem C17_accumulation_invariant (vmxOnly : Bool) (hw : Board) (g : Globals)
    (bytes : List Char)
    (hidx : g.cmdIndex = 0) (hlen : g.command.length = MAX_COMMAND_SIZE)
    (hempty : g.command.head? = some NUL)
    (hk : bytes.length < MAX_COMMAND_SIZE)
    (hbytes : ∀ c ∈ bytes, c ≠ '\n' ∧ c ≠ NUL) :
    ∀ j, j ≤ bytes.length →
      ∃ g1, run vmxOnly hw g (bytes.take j) = .ok (g1, []) ∧
        g1.cmdIndex = (j : Int) ∧
        g1.command.take (j + 1) = bytes.take j ++ [NUL] ∧
        cstr g1.command = bytes.take j ∧
        g1.command.length = MAX_COMMAND_SIZE := by
  intro j hj
  obtain ⟨command, cmdIndex⟩ := g
  simp only at hidx hlen hempty
  subst hidx
  rcases command with _ | ⟨x, post⟩
  · simp at hempty
  · simp only [List.head?_cons, Option.some.injEq] at hempty
    subst hempty
    have hjl : (bytes.take j).length = j := by simp [hj]
    have hnl : ∀ c ∈ bytes.take j, c ≠ '\n' := fun c hc => (hbytes c (List.mem_of_mem_take hc)).1
    have hnn : NUL ∉ bytes.take j := fun hc => (hbytes NUL (List.mem_of_mem_take hc)).2 rfl
    have hrun := run_segment vmxOnly hw (bytes.take j) [] post NUL hnl (by simpa using hlen)
      (by simp only [List.length_nil, hjl]; omega)
    have e : (if bytes.take j = [] then NUL else NUL) = NUL := by split <;> rfl
    simp only [List.nil_append, List.length_nil, Int.natCast_zero, e, hjl] at hrun
    refine ⟨_, hrun, rfl, ?_, ?_, ?_⟩
    · have : j + 1 = (bytes.take j ++ [NUL]).length := by simp [hjl]
      rw [show bytes.take j ++ NUL :: post.drop j = (bytes.take j ++ [NUL]) ++ post.drop j by simp]
      rw [this, List.take_left]
    · show cstr (bytes.take j ++ NUL :: post.drop j) = bytes.take j
      rw [cstr_append_NUL, cstr_of_no_NUL _ hnn]
    · simp only [List.length_cons] at hlen
      simp only [List.length_append, List.length_cons, List.length_drop, hjl]
      omega

/-- C17 (witness): the three bytes `VMX` from the start-up state, after the second. -/
theorem C17_accumulation_witness :
    ∃ g1, run VMX_ONLY demoBoard initial (lineMarkerOnly.take 2) = .ok (g1, []) ∧
      g1.cmdIndex = ((2 : Nat) : Int) ∧
      g1.command.take (2 + 1) = lineMarkerOnly.take 2 ++ [NUL] ∧
      cstr g1.command = lineMarkerOnly.take 2 ∧
      g1.command.length = MAX_COMMAND_SIZE :=
  C17_accumulation_invariant VMX_ONLY demoBoard initial lineMarkerOnly rfl (by rfl) (by rfl)
    (by decide) (by decide) 2 (by decide)

/-- C18: extra spaces in front of a line, and extra spaces next to a space that already
separates two parts of a line, change neither the status nor the events of
`parseCommand` (nor whether it returns): a run of spaces is one delimiter and leading
spaces are skipped. -/
theorem C18_runs_of_spaces_are_one_delimiter (vmxOnly : Bool) (hw : Board)
    (a b : List Char) (m n : Nat) :
    reportOf (parseCommand vmxOnly hw (List.replicate m ' ' ++ a)) =
      reportOf (parseCommand vmxOnly hw a) ∧
    reportOf (parseCommand vmxOnly hw (a ++ (List.replicate n ' ' ++ ' ' :: b))) =
      reportOf (parseCommand vmxOnly hw (a ++ ' ' :: b)) ∧
    tokens (cstr (List.replicate m ' ' ++ a)) = tokens (cstr a) ∧
    tokens (cstr (a ++ (List.replicate n ' ' ++ ' ' :: b))) = tokens (cstr (a ++ ' ' :: b)) := by
  have hrep : ∀ k : Nat, NUL ∉ List.replicate k ' ' := by
    intro k hk
    have := List.eq_of_mem_replicate hk
    revert this
    decide
  have t1 : tokens (cstr (List.replicate m ' ' ++ a)) = tokens (cstr a) := by
    rw [cstr_append_of_no_NUL _ _ (hrep m), tokens_spaces_append]
  have t2 : tokens (cstr (a ++ (List.replicate n ' ' ++ ' ' :: b))) =
      tokens (cstr (a ++ ' ' :: b)) := by
    by_cases ha : NUL ∈ a
    · rw [cstr_append_of_NUL a _ ha, cstr_append_of_NUL a _ ha]
    · have e : cstr (' ' :: b) = ' ' :: cstr b := by simp [cstr, List.takeWhile, NUL]
      rw [cstr_append_of_no_NUL a _ ha, cstr_append_of_no_NUL a _ ha,
        cstr_append_of_no_NUL _ _ (hrep n), e]
      cases n with
      | zero => simp
      | succ k =>
        have l : tokens (a ++ ' ' :: (List.replicate k ' ' ++ ' ' :: cstr b)) =
            tokens a ++ tokens (cstr b) := by
          rw [tokens_append_space a, tokens_spaces_append, tokens_space_cons]
        rw [List.replicate_succ, List.cons_append, l, tokens_append_space]
  exact ⟨parse_report_congr vmxOnly hw _ _ t1, parse_report_congr vmxOnly hw _ _ t2, t1, t2⟩

/-- C19: on every line that has a first token, an opcode token and at least as many
further tokens as the opcode reads (2 for PINMODE, DIGITALWRITE, ANALOGWRITE; 1 for
DIGITALREAD, ANALOGREAD), each `strtok` result that `parseCommand` can hand to `strcmp`
or `atoi` is a token and not `NULL`, and `parseCommand` returns: it ends in no fault. -/
theorem C19_dispatch_total_with_all_tokens (vmxOnly : Bool) (hw : Board)
    (line t0 op : List Char) (args : List (List Char))
    (htok : tokens (cstr line) = t0 :: op :: args)
    (hargs : operandCount op ≤ args.length) :
    (∃ o, parseCommand vmxOnly hw line = .ok o) ∧
    (∀ f, parseCommand vmxOnly hw line ≠ .error f) ∧
    (strtok (some (cstr line)) delims ⟨[], []⟩).1 = some t0 ∧
    (strtok none delims (strtok (some (cstr line)) delims ⟨[], []⟩).2).1 = some op ∧
    (1 ≤ operandCount op →
      ∃ x, (strtok none delims (strtok none delims
        (strtok (some (cstr line)) delims ⟨[], []⟩).2).2).1 = some x) ∧
    (2 ≤ operandCount op →
      ∃ y, (strtok none delims (strtok none delims (strtok none delims
        (strtok (some (cstr line)) delims ⟨[], []⟩).2).2).2).1 = some y) := by
  have hsup : suppliesAll vmxOnly (tokens (cstr line)) = true := by
    rw [htok]
    simp only [suppliesAll]
    split
    · rfl
    · simpa using hargs
  obtain ⟨o, ho⟩ := parse_total vmxOnly hw line hsup
  obtain ⟨h0, h1, h2, h3⟩ := strtok_chain (cstr line)
  rw [htok] at h0 h1 h2 h3
  refine ⟨⟨o, ho⟩, ?_, h0, h1, ?_, ?_⟩
  · intro f hf
    rw [ho] at hf
    cases hf
  · intro h
    rcases args with _ | ⟨x, r⟩
    · simp only [List.length_nil] at hargs
      omega
    · exact ⟨x, h2⟩
  · intro h
    rcases args with _ | ⟨x, _ | ⟨y, r⟩⟩
    · simp only [List.length_nil] at hargs
      omega
    · simp only [List.length_cons, List.length_nil] at hargs
      omega
    · exact ⟨y, h3⟩

/-- C19 (witness): the line `VMX ANALOGWRITE 9 128`. -/
theorem C19_dispatch_total_witness :
    (∃ o, parseCommand VMX_ONLY demoBoard lineAnalogWrite = .ok o) ∧
    (∀ f, parseCommand VMX_ONLY demoBoard lineAnalogWrite ≠ .error f) ∧
    (strtok (some (cstr lineAnalogWrite)) delims ⟨[], []⟩).1 = some strVMX ∧
    (strtok none delims (strtok (some (cstr lineAnalogWrite)) delims ⟨[], []⟩).2).1
      = some strANALOGWRITE ∧
    (1 ≤ operandCount strANALOGWRITE →
      ∃ x, (strtok none delims (strtok none delims
        (strtok (some (cstr lineAnalogWrite)) delims ⟨[], []⟩).2).2).1 = some x) ∧
    (2 ≤ operandCount strANALOGWRITE →
      ∃ y, (strtok none delims (strtok none delims (strtok none delims
        (strtok (some (cstr lineAnalogWrite)) delims ⟨[], []⟩).2).2).2).1 = some y) :=
  C19_dispatch_total_with_all_tokens VMX_ONLY demoBoard lineAnalogWrite strVMX strANALOGWRITE
    [['9'], ['1', '2', '8']] (by rfl) (by decide)

end VMXSerial
